import Mathlib

/-!
Verification of the `DependencyGraph` library (src/lib/DependencyGraph.js).

The JavaScript store keeps three insertion-ordered containers:
  * `nodes`          : Map nodeId -> Set of outgoing neighbour ids
  * `incomingEdges`  : Map nodeId -> Set of incoming neighbour ids
  * `edges`          : Map "from->to" -> { to, type }

JS `Map`s and `Set`s preserve insertion order and use value equality on
string keys, so they are modelled as association lists (`List (String × β)`)
respectively duplicate-free lists, with operations that mirror
`has/get/set/delete` and `has/add/delete` exactly.
-/

namespace DepGraph

/-- Keys of an association list, in order. -/
def keys (m : List (String × β)) : List String :=
  m.map Prod.fst

/-- JS `Map.prototype.has`. -/
def mapHas (m : List (String × β)) (k : String) : Bool :=
  match m with
  | [] => false
  | (k', _) :: rest => if k' = k then true else mapHas rest k

/-- JS `Map.prototype.get` (returning `none` for `undefined`). -/
def mapGet? (m : List (String × β)) (k : String) : Option β :=
  match m with
  | [] => none
  | (k', v) :: rest => if k' = k then some v else mapGet? rest k

/-- JS `Map.prototype.set`: update in place when the key exists, append otherwise. -/
def mapSet (m : List (String × β)) (k : String) (v : β) : List (String × β) :=
  match m with
  | [] => [(k, v)]
  | (k', v') :: rest => if k' = k then (k, v) :: rest else (k', v') :: mapSet rest k v

/-- JS `Map.prototype.delete` (dropping every entry with the key). -/
def mapDelete (m : List (String × β)) (k : String) : List (String × β) :=
  match m with
  | [] => []
  | (k', v) :: rest => if k' = k then mapDelete rest k else (k', v) :: mapDelete rest k

/-- JS `Set.prototype.has`. -/
def setHas (s : List String) (a : String) : Bool :=
  match s with
  | [] => false
  | b :: rest => if b = a then true else setHas rest a

/-- JS `Set.prototype.add`: append if not already present. -/
def setAdd (s : List String) (a : String) : List String :=
  if setHas s a then s else s ++ [a]

/-- JS `Set.prototype.delete`. -/
def setDelete (s : List String) (a : String) : List String :=
  match s with
  | [] => []
  | b :: rest => if b = a then setDelete rest a else b :: setDelete rest a

/-- `m.get(k)?.add(a)` : add `a` to the set stored at `k` (no-op when `k` is absent). -/
def adjAdd (m : List (String × List String)) (k a : String) : List (String × List String) :=
  match m with
  | [] => []
  | (k', s) :: rest => if k' = k then (k', setAdd s a) :: rest else (k', s) :: adjAdd rest k a

/-- `m.get(k)?.delete(a)` : remove `a` from the set stored at `k` (no-op when absent). -/
def adjDelete (m : List (String × List String)) (k a : String) : List (String × List String) :=
  match m with
  | [] => []
  | (k', s) :: rest => if k' = k then (k', setDelete s a) :: rest else (k', s) :: adjDelete rest k a

/-- `m.get(k) || new Set()`. -/
def adjGet (m : List (String × List String)) (k : String) : List String :=
  (mapGet? m k).getD []

/-- An edge record `{ to, type }` as stored in `this.edges`. -/
structure Edge where
  «to» : String
  type : String
deriving DecidableEq, Repr

/-- The whole store. -/
structure Graph where
  nodes : List (String × List String)
  incomingEdges : List (String × List String)
  edges : List (String × Edge)
deriving DecidableEq, Repr

/-- `new DependencyGraph()`. -/
def Graph.empty : Graph := ⟨[], [], []⟩

/-- The key `` `${fromNodeId}->${toNodeId}` `` of the edge table. -/
def edgeKey (f t : String) : String := f ++ "->" ++ t

/-- `addNode(nodeId)`; returns the new store and the boolean result. -/
def addNode (g : Graph) (nodeId : String) : Graph × Bool :=
  if mapHas g.nodes nodeId then (g, false)
  else
    ({ g with
        nodes := mapSet g.nodes nodeId []
        incomingEdges := mapSet g.incomingEdges nodeId [] }, true)

/-- `addEdge(fromNodeId, toNodeId, type)`. -/
def addEdge (g : Graph) (fromNodeId toNodeId ty : String) : Graph :=
  let g1 := (addNode g fromNodeId).1
  let g2 := (addNode g1 toNodeId).1
  let g3 := { g2 with nodes := adjAdd g2.nodes fromNodeId toNodeId }
  let g4 := { g3 with incomingEdges := adjAdd g3.incomingEdges toNodeId fromNodeId }
  { g4 with edges := mapSet g4.edges (edgeKey fromNodeId toNodeId) ⟨toNodeId, ty⟩ }

/-- `hasNode(nodeId)`. -/
def hasNode (g : Graph) (nodeId : String) : Bool :=
  mapHas g.nodes nodeId

/-- `removeEdge(fromNodeId, toNodeId)`; returns the new store and the boolean result. -/
def removeEdge (g : Graph) (fromNodeId toNodeId : String) : Graph × Bool :=
  let k := edgeKey fromNodeId toNodeId
  if mapHas g.edges k then
    let g1 := { g with edges := mapDelete g.edges k }
    let g2 := { g1 with nodes := adjDelete g1.nodes fromNodeId toNodeId }
    ({ g2 with incomingEdges := adjDelete g2.incomingEdges toNodeId fromNodeId }, true)
  else (g, false)

/-- Body of the first loop of `removeNode`: for one outgoing dependency,
delete the edge record and the back-reference in the incoming index. -/
def removeNodeOutStep (nodeId : String) (h : Graph) (dependencyId : String) : Graph :=
  { h with
      edges := mapDelete h.edges (edgeKey nodeId dependencyId)
      incomingEdges := adjDelete h.incomingEdges dependencyId nodeId }

/-- Body of the second loop of `removeNode`: for one incoming dependent,
delete the edge record and the forward reference in the outgoing index. -/
def removeNodeInStep (nodeId : String) (h : Graph) (dependentId : String) : Graph :=
  { h with
      edges := mapDelete h.edges (edgeKey dependentId nodeId)
      nodes := adjDelete h.nodes dependentId nodeId }

/-- `removeNode(nodeId)`; returns the new store and the boolean result.
The two loops of the source are `foldl`s of the step functions above: the
first deletes the outgoing edges (touching `edges` and `incomingEdges`
only), the second reads the incoming set afterwards and deletes the
incoming edges. -/
def removeNode (g : Graph) (nodeId : String) : Graph × Bool :=
  if mapHas g.nodes nodeId then
    let outs := adjGet g.nodes nodeId
    let g1 := outs.foldl (removeNodeOutStep nodeId) g
    let ins := adjGet g1.incomingEdges nodeId
    let g2 := ins.foldl (removeNodeInStep nodeId) g1
    ({ g2 with
        nodes := mapDelete g2.nodes nodeId
        incomingEdges := mapDelete g2.incomingEdges nodeId }, true)
  else (g, false)

/-- One call of the mutating store API. -/
inductive Op
  | addNode (id : String)
  | addEdge (f t ty : String)
  | removeEdge (f t : String)
  | removeNode (id : String)
deriving DecidableEq, Repr

/-- Apply one call, discarding the boolean result. -/
def applyOp (g : Graph) : Op → Graph
  | .addNode id => (addNode g id).1
  | .addEdge f t ty => addEdge g f t ty
  | .removeEdge f t => (removeEdge g f t).1
  | .removeNode id => (removeNode g id).1

/-- The store after a sequence of calls on an initially empty store. -/
def run (ops : List Op) : Graph :=
  ops.foldl applyOp Graph.empty

/-! ### Basic lemmas about the container operations -/

theorem mapHas_iff {β : Type} {m : List (String × β)} {k : String} :
    mapHas m k = true ↔ k ∈ keys m := by
  induction m with
  | nil => simp [mapHas, keys]
  | cons p rest ih =>
      obtain ⟨k', v⟩ := p
      by_cases h : k' = k <;> simp [mapHas, keys, h, ih] <;> tauto

theorem mapGet?_eq_none_iff {β : Type} {m : List (String × β)} {k : String} :
    mapGet? m k = none ↔ k ∉ keys m := by
  induction m with
  | nil => simp [mapGet?, keys]
  | cons p rest ih =>
      obtain ⟨k', v⟩ := p
      by_cases h : k' = k <;> simp [mapGet?, keys, h, ih] <;> tauto

theorem mapHas_eq_isSome {β : Type} {m : List (String × β)} {k : String} :
    mapHas m k = (mapGet? m k).isSome := by
  induction m with
  | nil => simp [mapHas, mapGet?]
  | cons p rest ih =>
      obtain ⟨k', v⟩ := p
      by_cases h : k' = k <;> simp [mapHas, mapGet?, h, ih]

theorem mem_keys_of_mapGet? {β : Type} {m : List (String × β)} {k : String} {v : β}
    (h : mapGet? m k = some v) : k ∈ keys m := by
  by_contra hk
  rw [← mapGet?_eq_none_iff] at hk
  simp [hk] at h

theorem mapGet?_mem {β : Type} {m : List (String × β)} {k : String} {v : β}
    (h : mapGet? m k = some v) : (k, v) ∈ m := by
  induction m with
  | nil => simp [mapGet?] at h
  | cons p rest ih =>
      obtain ⟨k', v'⟩ := p
      by_cases hk : k' = k
      · subst hk; simp [mapGet?] at h; simp [h]
      · simp [mapGet?, hk] at h
        exact List.mem_cons_of_mem _ (ih h)

theorem mapGet?_of_mem {β : Type} {m : List (String × β)} {k : String} {v : β}
    (hn : (keys m).Nodup) (h : (k, v) ∈ m) : mapGet? m k = some v := by
  induction m with
  | nil => simp at h
  | cons p rest ih =>
      obtain ⟨k', v'⟩ := p
      have hn' : k' ∉ keys rest ∧ (keys rest).Nodup := by
        simpa [keys] using hn
      rcases List.mem_cons.1 h with h1 | h2
      · cases h1
        simp [mapGet?]
      · have hk : ¬ k' = k := by
          intro e
          subst e
          exact hn'.1 (List.mem_map.2 ⟨(k', v), h2, rfl⟩)
        rw [mapGet?, if_neg hk]
        exact ih hn'.2 h2

theorem mapGet?_mapSet {β : Type} {m : List (String × β)} {k k' : String} {v : β} :
    mapGet? (mapSet m k v) k' = if k = k' then some v else mapGet? m k' := by
  induction m with
  | nil =>
      by_cases h : k = k'
      · subst h
        simp [mapSet, mapGet?]
      · simp only [mapSet, mapGet?, if_neg h]
  | cons p rest ih =>
      obtain ⟨k0, v0⟩ := p
      by_cases h : k0 = k
      · subst h
        rw [mapSet, if_pos rfl]
        by_cases h' : k0 = k'
        · subst h'
          rw [mapGet?, if_pos rfl, if_pos rfl]
        · rw [mapGet?, if_neg h', if_neg h', mapGet?, if_neg h']
      · rw [mapSet, if_neg h]
        by_cases h' : k0 = k'
        · subst h'
          have hkk : ¬ k = k0 := fun e => h e.symm
          rw [mapGet?, if_pos rfl, if_neg hkk, mapGet?, if_pos rfl]
        · rw [mapGet?, if_neg h', ih, mapGet?, if_neg h']

theorem keys_mapSet {β : Type} {m : List (String × β)} {k : String} {v : β} :
    keys (mapSet m k v) = if mapHas m k then keys m else keys m ++ [k] := by
  induction m with
  | nil => simp [mapSet, mapHas, keys]
  | cons p rest ih =>
      obtain ⟨k0, v0⟩ := p
      by_cases h : k0 = k
      · subst h
        rw [mapSet, if_pos rfl, mapHas, if_pos rfl]
        simp [keys]
      · rw [mapSet, if_neg h, mapHas, if_neg h]
        cases hr : mapHas rest k
        · rw [hr] at ih
          simp only [Bool.false_eq_true, if_false] at ih
          simp only [Bool.false_eq_true, if_false, keys, List.map_cons]
          simp only [keys] at ih
          rw [ih]
          rfl
        · rw [hr] at ih
          simp only [if_true] at ih
          simp only [if_true, keys, List.map_cons]
          simp only [keys] at ih
          rw [ih]

theorem mem_keys_mapSet {β : Type} {m : List (String × β)} {k k' : String} {v : β} :
    k' ∈ keys (mapSet m k v) ↔ k' ∈ keys m ∨ k' = k := by
  rw [keys_mapSet]
  cases h : mapHas m k
  · simp
  · simp only [if_true]
    constructor
    · exact Or.inl
    · rintro (hx | rfl)
      · exact hx
      · exact mapHas_iff.1 h

theorem keys_mapSet_nodup {β : Type} {m : List (String × β)} {k : String} {v : β}
    (hn : (keys m).Nodup) : (keys (mapSet m k v)).Nodup := by
  rw [keys_mapSet]
  cases h : mapHas m k
  · simp only [Bool.false_eq_true, if_false]
    rw [List.nodup_append]
    refine ⟨hn, by simp, ?_⟩
    intro x hx hk
    simp at hk
    subst hk
    rw [mapHas_iff.2 hx] at h
    cases h
  · simpa using hn

theorem mapGet?_mapDelete {β : Type} {m : List (String × β)} {k k' : String} :
    mapGet? (mapDelete m k) k' = if k' = k then none else mapGet? m k' := by
  induction m with
  | nil =>
      rw [mapDelete, mapGet?]
      split <;> rfl
  | cons p rest ih =>
      obtain ⟨k0, v0⟩ := p
      by_cases h : k0 = k
      · subst h
        rw [mapDelete, if_pos rfl, ih]
        by_cases h' : k' = k0
        · subst h'
          rw [if_pos rfl, if_pos rfl]
        · rw [if_neg h', if_neg h', mapGet?, if_neg (fun e => h' e.symm)]
      · rw [mapDelete, if_neg h]
        by_cases h' : k0 = k'
        · subst h'
          have : ¬ k0 = k := h
          rw [mapGet?, if_pos rfl, if_neg (fun e => h (e : k0 = k)), mapGet?, if_pos rfl]
        · rw [mapGet?, if_neg h', ih, mapGet?, if_neg h']

theorem mem_keys_mapDelete {β : Type} {m : List (String × β)} {k k' : String} :
    k' ∈ keys (mapDelete m k) ↔ k' ∈ keys m ∧ ¬ k' = k := by
  constructor
  · intro h
    have hg := @mapGet?_mapDelete β m k k'
    by_cases e : k' = k
    · rw [if_pos e] at hg
      rw [mapGet?_eq_none_iff] at hg
      exact absurd h hg
    · rw [if_neg e] at hg
      rcases Option.eq_none_or_eq_some (mapGet? (mapDelete m k) k') with h0 | ⟨v, hv⟩
      · rw [mapGet?_eq_none_iff] at h0
        exact absurd h h0
      · refine ⟨@mem_keys_of_mapGet? β m k' v ?_, e⟩
        rw [← hg, hv]
  · rintro ⟨h, e⟩
    have hg := @mapGet?_mapDelete β m k k'
    rw [if_neg e] at hg
    rcases Option.eq_none_or_eq_some (mapGet? m k') with h0 | ⟨v, hv⟩
    · rw [mapGet?_eq_none_iff] at h0
      exact absurd h h0
    · exact @mem_keys_of_mapGet? β (mapDelete m k) k' v (by rw [hg, hv])

theorem keys_mapDelete_nodup {β : Type} {m : List (String × β)} {k : String}
    (hn : (keys m).Nodup) : (keys (mapDelete m k)).Nodup := by
  induction m with
  | nil => simp [mapDelete, keys]
  | cons p rest ih =>
      obtain ⟨k0, v0⟩ := p
      have hn' : k0 ∉ keys rest ∧ (keys rest).Nodup := by
        simpa [keys] using hn
      by_cases h : k0 = k
      · subst h
        rw [mapDelete, if_pos rfl]
        exact ih hn'.2
      · rw [mapDelete, if_neg h]
        have : keys ((k0, v0) :: mapDelete rest k) = k0 :: keys (mapDelete rest k) := rfl
        rw [this, List.nodup_cons]
        exact ⟨fun hx => hn'.1 (mem_keys_mapDelete.1 hx).1, ih hn'.2⟩

theorem setHas_iff {s : List String} {a : String} : setHas s a = true ↔ a ∈ s := by
  induction s with
  | nil => simp [setHas]
  | cons b rest ih =>
      by_cases h : b = a
      · subst h
        simp [setHas]
      · rw [setHas, if_neg h, ih]
        simp only [List.mem_cons]
        constructor
        · exact Or.inr
        · rintro (rfl | hx)
          · exact absurd rfl h
          · exact hx

theorem mem_setAdd {s : List String} {a b : String} :
    b ∈ setAdd s a ↔ b ∈ s ∨ b = a := by
  rw [setAdd]
  cases h : setHas s a
  · simp
  · simp only [if_true]
    constructor
    · exact Or.inl
    · rintro (hx | rfl)
      · exact hx
      · exact setHas_iff.1 h

theorem setAdd_nodup {s : List String} {a : String} (hn : s.Nodup) : (setAdd s a).Nodup := by
  rw [setAdd]
  cases h : setHas s a
  · simp only [Bool.false_eq_true, if_false]
    rw [List.nodup_append]
    refine ⟨hn, by simp, ?_⟩
    intro x hx hax
    simp at hax
    subst hax
    rw [setHas_iff.2 hx] at h
    cases h
  · simpa using hn

theorem mem_setDelete {s : List String} {a b : String} :
    b ∈ setDelete s a ↔ b ∈ s ∧ ¬ b = a := by
  induction s with
  | nil => simp [setDelete]
  | cons c rest ih =>
      by_cases h : c = a
      · subst h
        rw [setDelete, if_pos rfl, ih]
        simp only [List.mem_cons]
        constructor
        · rintro ⟨hx, hne⟩
          exact ⟨Or.inr hx, hne⟩
        · rintro ⟨rfl | hx, hne⟩
          · exact absurd rfl hne
          · exact ⟨hx, hne⟩
      · rw [setDelete, if_neg h]
        simp only [List.mem_cons, ih]
        constructor
        · rintro (rfl | ⟨hx, hne⟩)
          · exact ⟨Or.inl rfl, h⟩
          · exact ⟨Or.inr hx, hne⟩
        · rintro ⟨rfl | hx, hne⟩
          · exact Or.inl rfl
          · exact Or.inr ⟨hx, hne⟩

theorem setDelete_nodup {s : List String} {a : String} (hn : s.Nodup) :
    (setDelete s a).Nodup := by
  induction s with
  | nil => simp [setDelete]
  | cons c rest ih =>
      have hn' : c ∉ rest ∧ rest.Nodup := by simpa using hn
      by_cases h : c = a
      · subst h
        rw [setDelete, if_pos rfl]
        exact ih hn'.2
      · rw [setDelete, if_neg h, List.nodup_cons]
        exact ⟨fun hx => hn'.1 (mem_setDelete.1 hx).1, ih hn'.2⟩

theorem adjGet_eq_nil_of_absent {m : List (String × List String)} {k : String}
    (h : k ∉ keys m) : adjGet m k = [] := by
  rw [← mapGet?_eq_none_iff] at h
  simp [adjGet, h]

theorem mem_keys_of_mem_adjGet {m : List (String × List String)} {k t : String}
    (h : t ∈ adjGet m k) : k ∈ keys m := by
  by_contra hk
  rw [adjGet_eq_nil_of_absent hk] at h
  simp at h

theorem mapGet?_adjAdd {m : List (String × List String)} {k a x : String} :
    mapGet? (adjAdd m k a) x =
      (mapGet? m x).map (fun s => if x = k then setAdd s a else s) := by
  induction m with
  | nil => simp [adjAdd, mapGet?]
  | cons p rest ih =>
      obtain ⟨k0, s0⟩ := p
      by_cases h : k0 = k
      · subst h
        rw [adjAdd, if_pos rfl]
        by_cases h' : k0 = x
        · subst h'
          rw [mapGet?, if_pos rfl, mapGet?, if_pos rfl]
          simp only [Option.map]
          simp
        · rw [mapGet?, if_neg h', mapGet?, if_neg h']
          rcases Option.eq_none_or_eq_some (mapGet? rest x) with h0 | ⟨v, hv⟩
          · simp [h0]
          · rw [hv]
            simp only [Option.map]
            rw [if_neg (show ¬ x = k0 from fun e => h' e.symm)]
      · rw [adjAdd, if_neg h]
        by_cases h' : k0 = x
        · subst h'
          rw [mapGet?, if_pos rfl, mapGet?, if_pos rfl]
          simp only [Option.map]
          rw [if_neg (show ¬ k0 = k from h)]
        · rw [mapGet?, if_neg h', mapGet?, if_neg h', ih]

theorem mapGet?_adjDelete {m : List (String × List String)} {k a x : String} :
    mapGet? (adjDelete m k a) x =
      (mapGet? m x).map (fun s => if x = k then setDelete s a else s) := by
  induction m with
  | nil => simp [adjDelete, mapGet?]
  | cons p rest ih =>
      obtain ⟨k0, s0⟩ := p
      by_cases h : k0 = k
      · subst h
        rw [adjDelete, if_pos rfl]
        by_cases h' : k0 = x
        · subst h'
          rw [mapGet?, if_pos rfl, mapGet?, if_pos rfl]
          simp only [Option.map]
          simp
        · rw [mapGet?, if_neg h', mapGet?, if_neg h']
          rcases Option.eq_none_or_eq_some (mapGet? rest x) with h0 | ⟨v, hv⟩
          · simp [h0]
          · rw [hv]
            simp only [Option.map]
            rw [if_neg (show ¬ x = k0 from fun e => h' e.symm)]
      · rw [adjDelete, if_neg h]
        by_cases h' : k0 = x
        · subst h'
          rw [mapGet?, if_pos rfl, mapGet?, if_pos rfl]
          simp only [Option.map]
          rw [if_neg (show ¬ k0 = k from h)]
        · rw [mapGet?, if_neg h', mapGet?, if_neg h', ih]

theorem keys_adjAdd {m : List (String × List String)} {k a : String} :
    keys (adjAdd m k a) = keys m := by
  induction m with
  | nil => simp [adjAdd]
  | cons p rest ih =>
      obtain ⟨k0, s0⟩ := p
      by_cases h : k0 = k
      · subst h
        rw [adjAdd, if_pos rfl]
        rfl
      · rw [adjAdd, if_neg h]
        show k0 :: keys (adjAdd rest k a) = k0 :: keys rest
        rw [ih]

theorem keys_adjDelete {m : List (String × List String)} {k a : String} :
    keys (adjDelete m k a) = keys m := by
  induction m with
  | nil => simp [adjDelete]
  | cons p rest ih =>
      obtain ⟨k0, s0⟩ := p
      by_cases h : k0 = k
      · subst h
        rw [adjDelete, if_pos rfl]
        rfl
      · rw [adjDelete, if_neg h]
        show k0 :: keys (adjDelete rest k a) = k0 :: keys rest
        rw [ih]

theorem adjGet_adjAdd_self {m : List (String × List String)} {k a : String}
    (h : k ∈ keys m) : adjGet (adjAdd m k a) k = setAdd (adjGet m k) a := by
  have h2 : mapHas m k = true := mapHas_iff.2 h
  rw [mapHas_eq_isSome] at h2
  obtain ⟨v, hv⟩ := Option.isSome_iff_exists.1 h2
  simp [adjGet, mapGet?_adjAdd, hv]

theorem adjGet_adjAdd_ne {m : List (String × List String)} {k a x : String}
    (h : ¬ x = k) : adjGet (adjAdd m k a) x = adjGet m x := by
  simp only [adjGet, mapGet?_adjAdd]
  cases mapGet? m x <;> simp [h]

theorem adjGet_adjDelete_self {m : List (String × List String)} {k a : String} :
    adjGet (adjDelete m k a) k = setDelete (adjGet m k) a := by
  simp only [adjGet, mapGet?_adjDelete]
  cases mapGet? m k <;> simp [setDelete]

theorem adjGet_adjDelete_ne {m : List (String × List String)} {k a x : String}
    (h : ¬ x = k) : adjGet (adjDelete m k a) x = adjGet m x := by
  simp only [adjGet, mapGet?_adjDelete]
  cases mapGet? m x <;> simp [h]

/-! ### Further membership lemmas -/

theorem mem_mapSet_elim {β : Type} {m : List (String × β)} {k : String} {v : β} {p : String × β}
    (h : p ∈ mapSet m k v) : p ∈ m ∨ p = (k, v) := by
  induction m with
  | nil => simpa [mapSet] using h
  | cons q rest ih =>
      obtain ⟨k0, v0⟩ := q
      by_cases hk : k0 = k
      · subst hk
        rw [mapSet, if_pos rfl] at h
        rcases List.mem_cons.1 h with h1 | h2
        · exact Or.inr h1
        · exact Or.inl (List.mem_cons_of_mem _ h2)
      · rw [mapSet, if_neg hk] at h
        rcases List.mem_cons.1 h with h1 | h2
        · exact Or.inl (h1 ▸ List.mem_cons_self _ _)
        · rcases ih h2 with h3 | h3
          · exact Or.inl (List.mem_cons_of_mem _ h3)
          · exact Or.inr h3

theorem mem_mapDelete_iff {β : Type} {m : List (String × β)} {k : String} {p : String × β} :
    p ∈ mapDelete m k ↔ p ∈ m ∧ ¬ p.1 = k := by
  induction m with
  | nil => simp [mapDelete]
  | cons q rest ih =>
      obtain ⟨k0, v0⟩ := q
      by_cases hk : k0 = k
      · subst hk
        rw [mapDelete, if_pos rfl, ih]
        simp only [List.mem_cons]
        constructor
        · rintro ⟨h1, h2⟩
          exact ⟨Or.inr h1, h2⟩
        · rintro ⟨h1 | h1, h2⟩
          · exact absurd (by rw [h1]) h2
          · exact ⟨h1, h2⟩
      · rw [mapDelete, if_neg hk]
        simp only [List.mem_cons, ih]
        constructor
        · rintro (rfl | ⟨h1, h2⟩)
          · exact ⟨Or.inl rfl, hk⟩
          · exact ⟨Or.inr h1, h2⟩
        · rintro ⟨rfl | h1, h2⟩
          · exact Or.inl rfl
          · exact Or.inr ⟨h1, h2⟩

theorem mem_adjAdd_elim {m : List (String × List String)} {k a : String} {p : String × List String}
    (h : p ∈ adjAdd m k a) : p ∈ m ∨ ∃ s, (p.1, s) ∈ m ∧ p.2 = setAdd s a := by
  induction m with
  | nil => simpa [adjAdd] using h
  | cons q rest ih =>
      obtain ⟨k0, s0⟩ := q
      by_cases hk : k0 = k
      · subst hk
        rw [adjAdd, if_pos rfl] at h
        rcases List.mem_cons.1 h with h1 | h2
        · subst h1
          exact Or.inr ⟨s0, List.mem_cons_self _ _, rfl⟩
        · exact Or.inl (List.mem_cons_of_mem _ h2)
      · rw [adjAdd, if_neg hk] at h
        rcases List.mem_cons.1 h with h1 | h2
        · exact Or.inl (h1 ▸ List.mem_cons_self _ _)
        · rcases ih h2 with h3 | ⟨s, h3, h4⟩
          · exact Or.inl (List.mem_cons_of_mem _ h3)
          · exact Or.inr ⟨s, List.mem_cons_of_mem _ h3, h4⟩

theorem mem_adjDelete_elim {m : List (String × List String)} {k a : String}
    {p : String × List String}
    (h : p ∈ adjDelete m k a) : p ∈ m ∨ ∃ s, (p.1, s) ∈ m ∧ p.2 = setDelete s a := by
  induction m with
  | nil => simpa [adjDelete] using h
  | cons q rest ih =>
      obtain ⟨k0, s0⟩ := q
      by_cases hk : k0 = k
      · subst hk
        rw [adjDelete, if_pos rfl] at h
        rcases List.mem_cons.1 h with h1 | h2
        · subst h1
          exact Or.inr ⟨s0, List.mem_cons_self _ _, rfl⟩
        · exact Or.inl (List.mem_cons_of_mem _ h2)
      · rw [adjDelete, if_neg hk] at h
        rcases List.mem_cons.1 h with h1 | h2
        · exact Or.inl (h1 ▸ List.mem_cons_self _ _)
        · rcases ih h2 with h3 | ⟨s, h3, h4⟩
          · exact Or.inl (List.mem_cons_of_mem _ h3)
          · exact Or.inr ⟨s, List.mem_cons_of_mem _ h3, h4⟩

theorem setDelete_idem {s : List String} {a : String} :
    setDelete (setDelete s a) a = setDelete s a := by
  induction s with
  | nil => simp [setDelete]
  | cons b rest ih =>
      by_cases h : b = a
      · subst h
        rw [setDelete, if_pos rfl, ih]
      · rw [setDelete, if_neg h, setDelete, if_neg h, ih]

theorem adjGet_of_mem {m : List (String × List String)} {k : String} {s : List String}
    (hn : (keys m).Nodup) (h : (k, s) ∈ m) : adjGet m k = s := by
  rw [adjGet, mapGet?_of_mem hn h]
  rfl

theorem adjGet_mapSet {m : List (String × List String)} {k x : String} {v : List String} :
    adjGet (mapSet m k v) x = if k = x then v else adjGet m x := by
  rw [adjGet, mapGet?_mapSet]
  by_cases h : k = x
  · rw [if_pos h, if_pos h]
    rfl
  · rw [if_neg h, if_neg h]
    rfl

/-! ### The inductive invariant of reachable stores -/

/-- The strengthened invariant maintained by every mutating operation:
the two adjacency indices have the same key set, mention only present
nodes, and mirror each other; every edge record is supported by its
adjacency entries; all maps have duplicate-free keys and all adjacency
sets are duplicate-free. -/
structure Inv (g : Graph) : Prop where
  keysSync : ∀ k, k ∈ keys g.nodes ↔ k ∈ keys g.incomingEdges
  outPresent : ∀ f t, t ∈ adjGet g.nodes f → t ∈ keys g.nodes
  adjSymm : ∀ f t, t ∈ adjGet g.nodes f ↔ f ∈ adjGet g.incomingEdges t
  edgeSupport : ∀ p ∈ g.edges, ∃ f, p.1 = edgeKey f p.2.«to» ∧ p.2.«to» ∈ adjGet g.nodes f
  nodesKeysNodup : (keys g.nodes).Nodup
  incomingKeysNodup : (keys g.incomingEdges).Nodup
  edgesKeysNodup : (keys g.edges).Nodup
  outSetsNodup : ∀ p ∈ g.nodes, (p.2 : List String).Nodup
  inSetsNodup : ∀ p ∈ g.incomingEdges, (p.2 : List String).Nodup

theorem inv_empty : Inv Graph.empty := by
  constructor <;> simp [Graph.empty, keys, adjGet, mapGet?]

theorem addNode_mem_keys {g : Graph} {n x : String} :
    x ∈ keys (addNode g n).1.nodes ↔ x ∈ keys g.nodes ∨ x = n := by
  by_cases hh : mapHas g.nodes n = true
  · rw [addNode, if_pos hh]
    constructor
    · exact Or.inl
    · rintro (h | rfl)
      · exact h
      · exact mapHas_iff.1 hh
  · rw [addNode, if_neg hh]
    exact mem_keys_mapSet

theorem addNode_edges {g : Graph} {n : String} : (addNode g n).1.edges = g.edges := by
  by_cases hh : mapHas g.nodes n = true
  · rw [addNode, if_pos hh]
  · rw [addNode, if_neg hh]

theorem inv_addNode {g : Graph} (hg : Inv g) (n : String) : Inv (addNode g n).1 := by
  by_cases hh : mapHas g.nodes n = true
  · rw [addNode, if_pos hh]
    exact hg
  · rw [addNode, if_neg hh]
    have hnn : n ∉ keys g.nodes := fun hx => hh (mapHas_iff.2 hx)
    have hadjn : ∀ x, adjGet (mapSet g.nodes n []) x = if n = x then [] else adjGet g.nodes x :=
      fun x => adjGet_mapSet
    have hadji : ∀ x,
        adjGet (mapSet g.incomingEdges n []) x = if n = x then [] else adjGet g.incomingEdges x :=
      fun x => adjGet_mapSet
    have hemptyN : adjGet g.nodes n = [] := adjGet_eq_nil_of_absent hnn
    show Inv { g with
        nodes := mapSet g.nodes n []
        incomingEdges := mapSet g.incomingEdges n [] }
    constructor
    · intro k
      show k ∈ keys (mapSet g.nodes n []) ↔ k ∈ keys (mapSet g.incomingEdges n [])
      rw [mem_keys_mapSet, mem_keys_mapSet, hg.keysSync k]
    · intro f t ht
      rw [hadjn] at ht
      by_cases hf : n = f
      · rw [if_pos hf] at ht
        simp at ht
      · rw [if_neg hf] at ht
        exact mem_keys_mapSet.2 (Or.inl (hg.outPresent f t ht))
    · intro f t
      rw [hadjn, hadji]
      by_cases hf : n = f
      · subst hf
        rw [if_pos rfl]
        by_cases ht : n = t
        · rw [if_pos ht]
          simp
        · rw [if_neg ht]
          have : ¬ n ∈ adjGet g.incomingEdges t := by
            intro hx
            exact hnn (mem_keys_of_mem_adjGet ((hg.adjSymm n t).2 hx))
          simp only [List.not_mem_nil, false_iff]
          exact this
      · rw [if_neg hf]
        by_cases ht : n = t
        · subst ht
          rw [if_pos rfl]
          simp only [List.not_mem_nil, iff_false]
          intro hx
          exact hnn (hg.outPresent f n hx)
        · rw [if_neg ht]
          exact hg.adjSymm f t
    · intro p hp
      obtain ⟨f, h1, h2⟩ := hg.edgeSupport p hp
      refine ⟨f, h1, ?_⟩
      have hf : ¬ n = f := by
        intro e
        subst e
        rw [hemptyN] at h2
        simp at h2
      rw [hadjn, if_neg hf]
      exact h2
    · exact keys_mapSet_nodup hg.nodesKeysNodup
    · exact keys_mapSet_nodup hg.incomingKeysNodup
    · exact hg.edgesKeysNodup
    · intro p hp
      rcases mem_mapSet_elim hp with h1 | h1
      · exact hg.outSetsNodup p h1
      · rw [h1]
        simp
    · intro p hp
      rcases mem_mapSet_elim hp with h1 | h1
      · exact hg.inSetsNodup p h1
      · rw [h1]
        simp

theorem inv_addEdgeCore {g : Graph} {f t ty : String} (hg : Inv g)
    (hf : f ∈ keys g.nodes) (ht : t ∈ keys g.nodes) :
    Inv { g with
        nodes := adjAdd g.nodes f t
        incomingEdges := adjAdd g.incomingEdges t f
        edges := mapSet g.edges (edgeKey f t) ⟨t, ty⟩ } := by
  have hti : t ∈ keys g.incomingEdges := (hg.keysSync t).1 ht
  have hadjn : ∀ x y, y ∈ adjGet (adjAdd g.nodes f t) x ↔
      y ∈ adjGet g.nodes x ∨ (x = f ∧ y = t) := by
    intro x y
    by_cases hx : x = f
    · subst hx
      rw [adjGet_adjAdd_self hf, mem_setAdd]
      constructor
      · rintro (h | rfl)
        · exact Or.inl h
        · exact Or.inr ⟨rfl, rfl⟩
      · rintro (h | ⟨-, rfl⟩)
        · exact Or.inl h
        · exact Or.inr rfl
    · rw [adjGet_adjAdd_ne hx]
      constructor
      · exact Or.inl
      · rintro (h | ⟨rfl, -⟩)
        · exact h
        · exact absurd rfl hx
  have hadji : ∀ x y, y ∈ adjGet (adjAdd g.incomingEdges t f) x ↔
      y ∈ adjGet g.incomingEdges x ∨ (x = t ∧ y = f) := by
    intro x y
    by_cases hx : x = t
    · subst hx
      rw [adjGet_adjAdd_self hti, mem_setAdd]
      constructor
      · rintro (h | rfl)
        · exact Or.inl h
        · exact Or.inr ⟨rfl, rfl⟩
      · rintro (h | ⟨-, rfl⟩)
        · exact Or.inl h
        · exact Or.inr rfl
    · rw [adjGet_adjAdd_ne hx]
      constructor
      · exact Or.inl
      · rintro (h | ⟨rfl, -⟩)
        · exact h
        · exact absurd rfl hx
  constructor
  · intro k
    rw [show keys (adjAdd g.nodes f t) = keys g.nodes from keys_adjAdd,
        show keys (adjAdd g.incomingEdges t f) = keys g.incomingEdges from keys_adjAdd]
    exact hg.keysSync k
  · intro x y hy
    rw [show keys (adjAdd g.nodes f t) = keys g.nodes from keys_adjAdd]
    rcases (hadjn x y).1 hy with h | ⟨-, rfl⟩
    · exact hg.outPresent x y h
    · exact ht
  · intro x y
    rw [hadjn, hadji, hg.adjSymm x y]
    constructor
    · rintro (h | ⟨rfl, rfl⟩)
      · exact Or.inl h
      · exact Or.inr ⟨rfl, rfl⟩
    · rintro (h | ⟨rfl, rfl⟩)
      · exact Or.inl h
      · exact Or.inr ⟨rfl, rfl⟩
  · intro p hp
    rcases mem_mapSet_elim hp with h1 | h1
    · obtain ⟨f2, he1, he2⟩ := hg.edgeSupport p h1
      exact ⟨f2, he1, (hadjn f2 p.2.«to»).2 (Or.inl he2)⟩
    · refine ⟨f, ?_, ?_⟩
      · rw [h1]
      · rw [h1]
        exact (hadjn f t).2 (Or.inr ⟨rfl, rfl⟩)
  · rw [show keys (adjAdd g.nodes f t) = keys g.nodes from keys_adjAdd]
    exact hg.nodesKeysNodup
  · rw [show keys (adjAdd g.incomingEdges t f) = keys g.incomingEdges from keys_adjAdd]
    exact hg.incomingKeysNodup
  · exact keys_mapSet_nodup hg.edgesKeysNodup
  · intro p hp
    rcases mem_adjAdd_elim hp with h1 | ⟨s, h1, h2⟩
    · exact hg.outSetsNodup p h1
    · rw [h2]
      exact setAdd_nodup (hg.outSetsNodup (p.1, s) h1)
  · intro p hp
    rcases mem_adjAdd_elim hp with h1 | ⟨s, h1, h2⟩
    · exact hg.inSetsNodup p h1
    · rw [h2]
      exact setAdd_nodup (hg.inSetsNodup (p.1, s) h1)

theorem inv_addEdge {g : Graph} (hg : Inv g) (f t ty : String) :
    Inv (addEdge g f t ty) := by
  have h1 := inv_addNode hg f
  have h2 := inv_addNode h1 t
  have hf : f ∈ keys (addNode (addNode g f).1 t).1.nodes :=
    addNode_mem_keys.2 (Or.inl (addNode_mem_keys.2 (Or.inr rfl)))
  have ht : t ∈ keys (addNode (addNode g f).1 t).1.nodes :=
    addNode_mem_keys.2 (Or.inr rfl)
  exact inv_addEdgeCore h2 hf ht

theorem inv_removeEdge {g : Graph} (hg : Inv g) (f t : String) :
    Inv (removeEdge g f t).1 := by
  by_cases hh : mapHas g.edges (edgeKey f t) = true
  · rw [removeEdge]
    simp only [if_pos hh]
    show Inv { g with
        edges := mapDelete g.edges (edgeKey f t)
        nodes := adjDelete g.nodes f t
        incomingEdges := adjDelete g.incomingEdges t f }
    have memN : ∀ x y, y ∈ adjGet (adjDelete g.nodes f t) x ↔
        y ∈ adjGet g.nodes x ∧ ¬ (x = f ∧ y = t) := by
      intro x y
      by_cases hx : x = f
      · subst hx
        rw [adjGet_adjDelete_self, mem_setDelete]
        constructor
        · rintro ⟨h1, h2⟩
          exact ⟨h1, fun hc => h2 hc.2⟩
        · rintro ⟨h1, h2⟩
          exact ⟨h1, fun hc => h2 ⟨rfl, hc⟩⟩
      · rw [adjGet_adjDelete_ne hx]
        exact ⟨fun h => ⟨h, fun hc => hx hc.1⟩, fun h => h.1⟩
    have memI : ∀ x y, y ∈ adjGet (adjDelete g.incomingEdges t f) x ↔
        y ∈ adjGet g.incomingEdges x ∧ ¬ (x = t ∧ y = f) := by
      intro x y
      by_cases hx : x = t
      · subst hx
        rw [adjGet_adjDelete_self, mem_setDelete]
        constructor
        · rintro ⟨h1, h2⟩
          exact ⟨h1, fun hc => h2 hc.2⟩
        · rintro ⟨h1, h2⟩
          exact ⟨h1, fun hc => h2 ⟨rfl, hc⟩⟩
      · rw [adjGet_adjDelete_ne hx]
        exact ⟨fun h => ⟨h, fun hc => hx hc.1⟩, fun h => h.1⟩
    constructor
    · intro k
      show k ∈ keys (adjDelete g.nodes f t) ↔ k ∈ keys (adjDelete g.incomingEdges t f)
      rw [keys_adjDelete, keys_adjDelete]
      exact hg.keysSync k
    · intro x y hy
      show y ∈ keys (adjDelete g.nodes f t)
      rw [keys_adjDelete]
      exact hg.outPresent x y ((memN x y).1 hy).1
    · intro x y
      rw [memN, memI, hg.adjSymm x y]
      constructor
      · rintro ⟨h1, h2⟩
        exact ⟨h1, fun hc => h2 ⟨hc.2, hc.1⟩⟩
      · rintro ⟨h1, h2⟩
        exact ⟨h1, fun hc => h2 ⟨hc.2, hc.1⟩⟩
    · intro p hp
      obtain ⟨hp1, hp2⟩ := mem_mapDelete_iff.1 hp
      obtain ⟨f2, he1, he2⟩ := hg.edgeSupport p hp1
      refine ⟨f2, he1, (memN f2 p.2.«to»).2 ⟨he2, ?_⟩⟩
      rintro ⟨rfl, hto⟩
      exact hp2 (by rw [he1, hto])
    · show (keys (adjDelete g.nodes f t)).Nodup
      rw [keys_adjDelete]
      exact hg.nodesKeysNodup
    · show (keys (adjDelete g.incomingEdges t f)).Nodup
      rw [keys_adjDelete]
      exact hg.incomingKeysNodup
    · exact keys_mapDelete_nodup hg.edgesKeysNodup
    · intro p hp
      rcases mem_adjDelete_elim hp with h1 | ⟨s, h1, h2⟩
      · exact hg.outSetsNodup p h1
      · rw [h2]
        exact setDelete_nodup (hg.outSetsNodup (p.1, s) h1)
    · intro p hp
      rcases mem_adjDelete_elim hp with h1 | ⟨s, h1, h2⟩
      · exact hg.inSetsNodup p h1
      · rw [h2]
        exact setDelete_nodup (hg.inSetsNodup (p.1, s) h1)
  · rw [removeEdge]
    simp only [if_neg hh]
    exact hg

theorem adjGet_mapDelete {m : List (String × List String)} {k x : String} :
    adjGet (mapDelete m k) x = if x = k then [] else adjGet m x := by
  rw [adjGet, mapGet?_mapDelete]
  by_cases h : x = k
  · rw [if_pos h, if_pos h]
    rfl
  · rw [if_neg h, if_neg h]
    rfl

/-! ### Characterizing the two deletion loops of `removeNode` -/

theorem outFold_nodes (n : String) (deps : List String) (g : Graph) :
    (deps.foldl (removeNodeOutStep n) g).nodes = g.nodes := by
  induction deps generalizing g with
  | nil => rfl
  | cons d rest ih =>
      rw [List.foldl_cons, ih]
      rfl

theorem outFold_mem_edges (n : String) (deps : List String) (g : Graph) (p : String × Edge) :
    p ∈ (deps.foldl (removeNodeOutStep n) g).edges ↔
      p ∈ g.edges ∧ ∀ d ∈ deps, ¬ p.1 = edgeKey n d := by
  induction deps generalizing g with
  | nil => simp
  | cons d rest ih =>
      rw [List.foldl_cons, ih,
        show (removeNodeOutStep n g d).edges = mapDelete g.edges (edgeKey n d) from rfl,
        mem_mapDelete_iff]
      constructor
      · rintro ⟨⟨h1, h2⟩, h3⟩
        refine ⟨h1, ?_⟩
        intro d' hd'
        rcases List.mem_cons.1 hd' with rfl | hd'
        · exact h2
        · exact h3 d' hd'
      · rintro ⟨h1, h2⟩
        exact ⟨⟨h1, h2 d (List.mem_cons_self _ _)⟩,
          fun d' hd' => h2 d' (List.mem_cons_of_mem _ hd')⟩

theorem outFold_adjGet_incoming (n : String) (deps : List String) (g : Graph) (x : String) :
    adjGet (deps.foldl (removeNodeOutStep n) g).incomingEdges x =
      if x ∈ deps then setDelete (adjGet g.incomingEdges x) n
      else adjGet g.incomingEdges x := by
  induction deps generalizing g with
  | nil => simp
  | cons d rest ih =>
      rw [List.foldl_cons, ih,
        show (removeNodeOutStep n g d).incomingEdges = adjDelete g.incomingEdges d n from rfl]
      by_cases hx : x ∈ rest
      · rw [if_pos hx, if_pos (List.mem_cons_of_mem _ hx)]
        by_cases hxd : x = d
        · subst hxd
          rw [adjGet_adjDelete_self, setDelete_idem]
        · rw [adjGet_adjDelete_ne hxd]
      · rw [if_neg hx]
        by_cases hxd : x = d
        · subst hxd
          rw [adjGet_adjDelete_self, if_pos (List.mem_cons_self _ _)]
        · rw [adjGet_adjDelete_ne hxd, if_neg (by
            intro hc
            rcases List.mem_cons.1 hc with hc | hc
            · exact hxd hc
            · exact hx hc)]

theorem outFold_keys_incoming (n : String) (deps : List String) (g : Graph) :
    keys (deps.foldl (removeNodeOutStep n) g).incomingEdges = keys g.incomingEdges := by
  induction deps generalizing g with
  | nil => rfl
  | cons d rest ih =>
      rw [List.foldl_cons, ih,
        show (removeNodeOutStep n g d).incomingEdges = adjDelete g.incomingEdges d n from rfl,
        keys_adjDelete]

theorem outFold_edges_nodup (n : String) (deps : List String) (g : Graph)
    (h : (keys g.edges).Nodup) :
    (keys (deps.foldl (removeNodeOutStep n) g).edges).Nodup := by
  induction deps generalizing g with
  | nil => exact h
  | cons d rest ih =>
      rw [List.foldl_cons]
      exact ih _ (keys_mapDelete_nodup h)

theorem outFold_in_sets_nodup (n : String) (deps : List String) (g : Graph)
    (h : ∀ p ∈ g.incomingEdges, (p.2 : List String).Nodup) :
    ∀ p ∈ (deps.foldl (removeNodeOutStep n) g).incomingEdges, (p.2 : List String).Nodup := by
  induction deps generalizing g with
  | nil => exact h
  | cons d rest ih =>
      rw [List.foldl_cons]
      refine ih _ ?_
      intro p hp
      rcases mem_adjDelete_elim hp with h1 | ⟨s, h1, h2⟩
      · exact h p h1
      · rw [h2]
        exact setDelete_nodup (h (p.1, s) h1)

theorem inFold_incoming (n : String) (deps : List String) (g : Graph) :
    (deps.foldl (removeNodeInStep n) g).incomingEdges = g.incomingEdges := by
  induction deps generalizing g with
  | nil => rfl
  | cons d rest ih =>
      rw [List.foldl_cons, ih]
      rfl

theorem inFold_mem_edges (n : String) (deps : List String) (g : Graph) (p : String × Edge) :
    p ∈ (deps.foldl (removeNodeInStep n) g).edges ↔
      p ∈ g.edges ∧ ∀ d ∈ deps, ¬ p.1 = edgeKey d n := by
  induction deps generalizing g with
  | nil => simp
  | cons d rest ih =>
      rw [List.foldl_cons, ih,
        show (removeNodeInStep n g d).edges = mapDelete g.edges (edgeKey d n) from rfl,
        mem_mapDelete_iff]
      constructor
      · rintro ⟨⟨h1, h2⟩, h3⟩
        refine ⟨h1, ?_⟩
        intro d' hd'
        rcases List.mem_cons.1 hd' with rfl | hd'
        · exact h2
        · exact h3 d' hd'
      · rintro ⟨h1, h2⟩
        exact ⟨⟨h1, h2 d (List.mem_cons_self _ _)⟩,
          fun d' hd' => h2 d' (List.mem_cons_of_mem _ hd')⟩

theorem inFold_adjGet_nodes (n : String) (deps : List String) (g : Graph) (x : String) :
    adjGet (deps.foldl (removeNodeInStep n) g).nodes x =
      if x ∈ deps then setDelete (adjGet g.nodes x) n
      else adjGet g.nodes x := by
  induction deps generalizing g with
  | nil => simp
  | cons d rest ih =>
      rw [List.foldl_cons, ih,
        show (removeNodeInStep n g d).nodes = adjDelete g.nodes d n from rfl]
      by_cases hx : x ∈ rest
      · rw [if_pos hx, if_pos (List.mem_cons_of_mem _ hx)]
        by_cases hxd : x = d
        · subst hxd
          rw [adjGet_adjDelete_self, setDelete_idem]
        · rw [adjGet_adjDelete_ne hxd]
      · rw [if_neg hx]
        by_cases hxd : x = d
        · subst hxd
          rw [adjGet_adjDelete_self, if_pos (List.mem_cons_self _ _)]
        · rw [adjGet_adjDelete_ne hxd, if_neg (by
            intro hc
            rcases List.mem_cons.1 hc with hc | hc
            · exact hxd hc
            · exact hx hc)]

theorem inFold_keys_nodes (n : String) (deps : List String) (g : Graph) :
    keys (deps.foldl (removeNodeInStep n) g).nodes = keys g.nodes := by
  induction deps generalizing g with
  | nil => rfl
  | cons d rest ih =>
      rw [List.foldl_cons, ih,
        show (removeNodeInStep n g d).nodes = adjDelete g.nodes d n from rfl,
        keys_adjDelete]

theorem inFold_edges_nodup (n : String) (deps : List String) (g : Graph)
    (h : (keys g.edges).Nodup) :
    (keys (deps.foldl (removeNodeInStep n) g).edges).Nodup := by
  induction deps generalizing g with
  | nil => exact h
  | cons d rest ih =>
      rw [List.foldl_cons]
      exact ih _ (keys_mapDelete_nodup h)

theorem inFold_out_sets_nodup (n : String) (deps : List String) (g : Graph)
    (h : ∀ p ∈ g.nodes, (p.2 : List String).Nodup) :
    ∀ p ∈ (deps.foldl (removeNodeInStep n) g).nodes, (p.2 : List String).Nodup := by
  induction deps generalizing g with
  | nil => exact h
  | cons d rest ih =>
      rw [List.foldl_cons]
      refine ih _ ?_
      intro p hp
      rcases mem_adjDelete_elim hp with h1 | ⟨s, h1, h2⟩
      · exact h p h1
      · rw [h2]
        exact setDelete_nodup (h (p.1, s) h1)

theorem inv_removeNode {g : Graph} (hg : Inv g) (n : String) :
    Inv (removeNode g n).1 := by
  by_cases hh : mapHas g.nodes n = true
  · rw [removeNode]
    simp only [if_pos hh]
    set outs := adjGet g.nodes n with houts
    set g1 := outs.foldl (removeNodeOutStep n) g with hg1
    set ins := adjGet g1.incomingEdges n with hins
    set g2 := ins.foldl (removeNodeInStep n) g1 with hg2
    have hNodes1 : g1.nodes = g.nodes := by
      rw [hg1]
      exact outFold_nodes n outs g
    have hInc2 : g2.incomingEdges = g1.incomingEdges := by
      rw [hg2]
      exact inFold_incoming n ins g1
    have memIns : ∀ x, x ∈ ins ↔ x ∈ adjGet g.incomingEdges n ∧ ¬ x = n := by
      intro x
      rw [hins, hg1, outFold_adjGet_incoming]
      by_cases hno : n ∈ outs
      · rw [if_pos hno, mem_setDelete]
      · rw [if_neg hno]
        constructor
        · intro hx
          refine ⟨hx, ?_⟩
          rintro rfl
          exact hno ((hg.adjSymm x x).2 hx)
        · exact And.left
    have memNodesFinal : ∀ x y, y ∈ adjGet (mapDelete g2.nodes n) x ↔
        (¬ x = n ∧ y ∈ adjGet g.nodes x ∧ ¬ y = n) := by
      intro x y
      rw [adjGet_mapDelete]
      by_cases hx : x = n
      · rw [if_pos hx]
        simp [hx]
      · rw [if_neg hx]
        have h2 : adjGet g2.nodes x =
            if x ∈ ins then setDelete (adjGet g.nodes x) n else adjGet g.nodes x := by
          rw [hg2, inFold_adjGet_nodes, hNodes1]
        rw [h2]
        by_cases hxi : x ∈ ins
        · rw [if_pos hxi, mem_setDelete]
          constructor
          · rintro ⟨ha, hb⟩
            exact ⟨hx, ha, hb⟩
          · rintro ⟨-, ha, hb⟩
            exact ⟨ha, hb⟩
        · rw [if_neg hxi]
          constructor
          · intro hy
            refine ⟨hx, hy, ?_⟩
            rintro rfl
            exact hxi ((memIns x).2 ⟨(hg.adjSymm x y).1 hy, hx⟩)
          · rintro ⟨-, ha, -⟩
            exact ha
    have memIncFinal : ∀ x y, y ∈ adjGet (mapDelete g2.incomingEdges n) x ↔
        (¬ x = n ∧ y ∈ adjGet g.incomingEdges x ∧ ¬ y = n) := by
      intro x y
      rw [adjGet_mapDelete]
      by_cases hx : x = n
      · rw [if_pos hx]
        simp [hx]
      · rw [if_neg hx]
        rw [hInc2, hg1, outFold_adjGet_incoming]
        by_cases hxo : x ∈ outs
        · rw [if_pos hxo, mem_setDelete]
          constructor
          · rintro ⟨ha, hb⟩
            exact ⟨hx, ha, hb⟩
          · rintro ⟨-, ha, hb⟩
            exact ⟨ha, hb⟩
        · rw [if_neg hxo]
          constructor
          · intro hy
            refine ⟨hx, hy, ?_⟩
            rintro rfl
            exact hxo ((hg.adjSymm y x).2 hy)
          · rintro ⟨-, ha, -⟩
            exact ha
    have memEdgesFinal : ∀ p : String × Edge, p ∈ g2.edges ↔
        p ∈ g.edges ∧ (∀ d ∈ outs, ¬ p.1 = edgeKey n d) ∧ (∀ d ∈ ins, ¬ p.1 = edgeKey d n) := by
      intro p
      rw [hg2, inFold_mem_edges, hg1, outFold_mem_edges]
      tauto
    have keysN : ∀ x, x ∈ keys (mapDelete g2.nodes n) ↔ x ∈ keys g.nodes ∧ ¬ x = n := by
      intro x
      rw [mem_keys_mapDelete,
        show keys g2.nodes = keys g.nodes from by rw [hg2, inFold_keys_nodes, hNodes1]]
    have keysI : ∀ x,
        x ∈ keys (mapDelete g2.incomingEdges n) ↔ x ∈ keys g.incomingEdges ∧ ¬ x = n := by
      intro x
      rw [mem_keys_mapDelete,
        show keys g2.incomingEdges = keys g.incomingEdges from by
          rw [hInc2, hg1, outFold_keys_incoming]]
    constructor
    · intro k
      show k ∈ keys (mapDelete g2.nodes n) ↔ k ∈ keys (mapDelete g2.incomingEdges n)
      rw [keysN, keysI, hg.keysSync k]
    · intro x y hy
      replace hy : y ∈ adjGet (mapDelete g2.nodes n) x := hy
      rw [memNodesFinal] at hy
      obtain ⟨-, hy1, hy2⟩ := hy
      show y ∈ keys (mapDelete g2.nodes n)
      exact keysN y |>.2 ⟨hg.outPresent x y hy1, hy2⟩
    · intro x y
      show y ∈ adjGet (mapDelete g2.nodes n) x ↔ x ∈ adjGet (mapDelete g2.incomingEdges n) y
      rw [memNodesFinal, memIncFinal, hg.adjSymm x y]
      tauto
    · intro p hp
      replace hp : p ∈ g2.edges := hp
      rw [memEdgesFinal] at hp
      obtain ⟨hp1, hp2, hp3⟩ := hp
      obtain ⟨f2, he1, he2⟩ := hg.edgeSupport p hp1
      have hf2 : ¬ f2 = n := by
        rintro rfl
        exact hp2 p.2.«to» he2 he1
      have hto : ¬ p.2.«to» = n := by
        intro he
        have hin : f2 ∈ adjGet g.incomingEdges n := by
          rw [← he]
          exact (hg.adjSymm f2 p.2.«to»).1 he2
        exact hp3 f2 ((memIns f2).2 ⟨hin, hf2⟩) (by rw [he1, he])
      show ∃ f, p.1 = edgeKey f p.2.«to» ∧ p.2.«to» ∈ adjGet (mapDelete g2.nodes n) f
      exact ⟨f2, he1, (memNodesFinal f2 p.2.«to»).2 ⟨hf2, he2, hto⟩⟩
    · show (keys (mapDelete g2.nodes n)).Nodup
      refine keys_mapDelete_nodup ?_
      rw [show keys g2.nodes = keys g.nodes from by rw [hg2, inFold_keys_nodes, hNodes1]]
      exact hg.nodesKeysNodup
    · show (keys (mapDelete g2.incomingEdges n)).Nodup
      refine keys_mapDelete_nodup ?_
      rw [show keys g2.incomingEdges = keys g.incomingEdges from by
        rw [hInc2, hg1, outFold_keys_incoming]]
      exact hg.incomingKeysNodup
    · show (keys g2.edges).Nodup
      rw [hg2]
      refine inFold_edges_nodup n ins g1 ?_
      rw [hg1]
      exact outFold_edges_nodup n outs g hg.edgesKeysNodup
    · intro p hp
      have hp1 : p ∈ g2.nodes := (mem_mapDelete_iff.1 hp).1
      rw [hg2] at hp1
      refine inFold_out_sets_nodup n ins g1 ?_ p hp1
      rw [hNodes1]
      exact hg.outSetsNodup
    · intro p hp
      have hp1 : p ∈ g2.incomingEdges := (mem_mapDelete_iff.1 hp).1
      rw [hInc2, hg1] at hp1
      exact outFold_in_sets_nodup n outs g hg.inSetsNodup p hp1
  · rw [removeNode]
    simp only [if_neg hh]
    exact hg

/-! ### Claim C1: the public store invariant, as a decidable check -/

/-- One edge-table entry is well-formed: its key decomposes as
`from->to` for a present node `from`, both endpoints are present,
membership of `to` in `outgoing(from)` agrees with membership of `from`
in `incoming(to)`, and both hold. -/
def edgeEntryOk (g : Graph) (p : String × Edge) : Bool :=
  (keys g.nodes).any fun f =>
    decide (p.1 = edgeKey f p.2.«to») &&
    mapHas g.nodes f &&
    mapHas g.nodes p.2.«to» &&
    (setHas (adjGet g.nodes f) p.2.«to» == setHas (adjGet g.incomingEdges p.2.«to») f) &&
    setHas (adjGet g.nodes f) p.2.«to»

/-- The store invariant of claim C1: every edge is endpoint-present and
mutually indexed, and no adjacency entry (outgoing or incoming) mentions
a node outside the node set — in particular none mentions a removed node. -/
def graphInvariant (g : Graph) : Bool :=
  g.edges.all (edgeEntryOk g) &&
  (g.nodes.all fun p => p.2.all fun t => mapHas g.nodes t) &&
  (g.incomingEdges.all fun p => p.2.all fun t => mapHas g.nodes t)

theorem graphInvariant_of_inv {g : Graph} (hg : Inv g) : graphInvariant g = true := by
  have h1 : g.edges.all (edgeEntryOk g) = true := by
    rw [List.all_eq_true]
    intro p hp
    obtain ⟨f, he1, he2⟩ := hg.edgeSupport p hp
    rw [edgeEntryOk, List.any_eq_true]
    have hfk : f ∈ keys g.nodes := mem_keys_of_mem_adjGet he2
    have htk : p.2.«to» ∈ keys g.nodes := hg.outPresent f p.2.«to» he2
    have hsym : f ∈ adjGet g.incomingEdges p.2.«to» := (hg.adjSymm f p.2.«to»).1 he2
    refine ⟨f, hfk, ?_⟩
    have e1 : setHas (adjGet g.nodes f) p.2.«to» = true := setHas_iff.2 he2
    have e2 : setHas (adjGet g.incomingEdges p.2.«to») f = true := setHas_iff.2 hsym
    simp only [Bool.and_eq_true, decide_eq_true_eq]
    exact ⟨⟨⟨⟨he1, mapHas_iff.2 hfk⟩, mapHas_iff.2 htk⟩, by rw [e1, e2]; rfl⟩, e1⟩
  have h2 : (g.nodes.all fun p => p.2.all fun t => mapHas g.nodes t) = true := by
    rw [List.all_eq_true]
    intro p hp
    rw [List.all_eq_true]
    intro t ht
    have : t ∈ adjGet g.nodes p.1 := by
      rw [adjGet_of_mem hg.nodesKeysNodup (by exact hp)]
      exact ht
    exact mapHas_iff.2 (hg.outPresent p.1 t this)
  have h3 : (g.incomingEdges.all fun p => p.2.all fun t => mapHas g.nodes t) = true := by
    rw [List.all_eq_true]
    intro p hp
    rw [List.all_eq_true]
    intro t ht
    have hmem : t ∈ adjGet g.incomingEdges p.1 := by
      rw [adjGet_of_mem hg.incomingKeysNodup (by exact hp)]
      exact ht
    have : p.1 ∈ adjGet g.nodes t := (hg.adjSymm t p.1).2 hmem
    exact mapHas_iff.2 (mem_keys_of_mem_adjGet this)
  rw [graphInvariant, h1, h2, h3]
  rfl

theorem inv_applyOp {g : Graph} (hg : Inv g) (op : Op) : Inv (applyOp g op) := by
  cases op with
  | addNode id => exact inv_addNode hg id
  | addEdge f t ty => exact inv_addEdge hg f t ty
  | removeEdge f t => exact inv_removeEdge hg f t
  | removeNode id => exact inv_removeNode hg id

theorem inv_foldl (ops : List Op) : ∀ g : Graph, Inv g → Inv (ops.foldl applyOp g) := by
  induction ops with
  | nil => exact fun g hg => hg
  | cons op rest ih =>
      intro g hg
      rw [List.foldl_cons]
      exact ih _ (inv_applyOp hg op)

theorem inv_run (ops : List Op) : Inv (run ops) :=
  inv_foldl ops Graph.empty inv_empty

/-- C1: for every graph state reachable by any sequence of `addNode`,
`addEdge`, `removeEdge` and `removeNode` calls on an initially empty
store, after each call every edge's endpoints are present in the node
set, for every edge `(from, to)` we have `to ∈ outgoing(from)` iff
`from ∈ incoming(to)` (and both hold), and no edge or adjacency entry
mentions a node that is not in the node set — so none mentions a
removed node. -/
theorem c1_store_invariant (ops : List Op) : graphInvariant (run ops) = true :=
  graphInvariant_of_inv (inv_run ops)

/-- C10: when `removeNode` returns `false` (the node is absent) or
`removeEdge` returns `false` (the edge is absent), the store — node set,
both adjacency indices and the edge table — is left exactly as it was. -/
theorem c10_failed_removal_is_noop (g : Graph) (f t n : String) :
    ((removeNode g n).2 = false → (removeNode g n).1 = g) ∧
    ((removeEdge g f t).2 = false → (removeEdge g f t).1 = g) := by
  constructor
  · intro h
    by_cases hh : mapHas g.nodes n = true
    · rw [removeNode] at h
      simp only [if_pos hh] at h
      cases h
    · rw [removeNode]
      simp only [if_neg hh]
  · intro h
    by_cases hh : mapHas g.edges (edgeKey f t) = true
    · rw [removeEdge] at h
      simp only [if_pos hh] at h
      cases h
    · rw [removeEdge]
      simp only [if_neg hh]

/-- Witness for C10 at a concrete store: on the empty store both removals
report `false` and leave the store untouched. -/
theorem c10_witness :
    (removeNode Graph.empty "A").2 = false ∧ (removeNode Graph.empty "A").1 = Graph.empty ∧
    (removeEdge Graph.empty "A" "B").2 = false ∧ (removeEdge Graph.empty "A" "B").1 = Graph.empty :=
  ⟨rfl, (c10_failed_removal_is_noop Graph.empty "A" "B" "A").1 rfl, rfl,
    (c10_failed_removal_is_noop Graph.empty "A" "B" "A").2 rfl⟩

/-! ### Claim C9: serialization round-trip

`serialize` renders the three maps into the JSON object model (the text
layer `JSON.stringify`/`JSON.parse` is a bijection on this model and is
not re-modelled); `deserialize` rebuilds the maps with `new Map(...)` and
`new Set(...)`, i.e. by folding `set`/`add` over the decoded pairs. -/

/-- The JSON object model: strings, arrays and objects suffice for the
serialized store. -/
inductive J
  | str (s : String)
  | arr (xs : List J)
  | obj (fields : List (String × J))

/-- One `[nodeId, Array.from(set)]` pair. -/
def encIndexEntry (p : String × List String) : J :=
  .arr [.str p.1, .arr (p.2.map J.str)]

/-- One `[edgeId, { to, type }]` pair. -/
def encEdgeEntry (p : String × Edge) : J :=
  .arr [.str p.1, .obj [("to", .str p.2.«to»), ("type", .str p.2.type)]]

/-- `serialize()`: the `data` document built from the three maps. -/
def serialize (g : Graph) : J :=
  .obj [
    ("nodes", .arr (g.nodes.map encIndexEntry)),
    ("incomingEdges", .arr (g.incomingEdges.map encIndexEntry)),
    ("edges", .arr (g.edges.map encEdgeEntry))]

def decStr : J → Option String
  | .str s => some s
  | _ => none

def decStrList : J → Option (List String)
  | .arr xs => xs.mapM decStr
  | _ => none

def decIndexEntry : J → Option (String × List String)
  | .arr [jk, jv] => do
      let k ← decStr jk
      let vs ← decStrList jv
      pure (k, vs)
  | _ => none

def decEdgeEntry : J → Option (String × Edge)
  | .arr [jk, .obj fields] => do
      let k ← decStr jk
      let jt ← mapGet? fields "to"
      let jy ← mapGet? fields "type"
      let t ← decStr jt
      let ty ← decStr jy
      pure (k, ⟨t, ty⟩)
  | _ => none

/-- `new Map(pairs)`: insert the pairs in order. -/
def mapFromPairs {β : Type} (ps : List (String × β)) : List (String × β) :=
  ps.foldl (fun m p => mapSet m p.1 p.2) []

/-- `new Set(values)`: add the values in order. -/
def setFromList (xs : List String) : List String :=
  xs.foldl setAdd []

/-- `DependencyGraph.deserialize(json)`. -/
def deserialize (j : J) : Option Graph :=
  match j with
  | .obj fields => do
      let jn ← mapGet? fields "nodes"
      let ji ← mapGet? fields "incomingEdges"
      let je ← mapGet? fields "edges"
      let nodesL ← (match jn with | .arr xs => xs.mapM decIndexEntry | _ => none)
      let incL ← (match ji with | .arr xs => xs.mapM decIndexEntry | _ => none)
      let edgesL ← (match je with | .arr xs => xs.mapM decEdgeEntry | _ => none)
      pure {
        nodes := mapFromPairs (nodesL.map fun p => (p.1, setFromList p.2))
        incomingEdges := mapFromPairs (incL.map fun p => (p.1, setFromList p.2))
        edges := mapFromPairs edgesL }
  | _ => none

/-- Well-formedness of a store record: duplicate-free map keys and
duplicate-free adjacency sets — true of every store the class can build. -/
def GraphWF (g : Graph) : Bool :=
  decide (keys g.nodes).Nodup && decide (keys g.incomingEdges).Nodup &&
  decide (keys g.edges).Nodup &&
  g.nodes.all (fun p => decide (p.2 : List String).Nodup) &&
  g.incomingEdges.all (fun p => decide (p.2 : List String).Nodup)

theorem graphWF_of_inv {g : Graph} (hg : Inv g) : GraphWF g = true := by
  rw [GraphWF]
  simp only [Bool.and_eq_true, decide_eq_true_eq, List.all_eq_true]
  exact ⟨⟨⟨⟨hg.nodesKeysNodup, hg.incomingKeysNodup⟩, hg.edgesKeysNodup⟩,
    fun p hp => by simpa using hg.outSetsNodup p hp⟩,
    fun p hp => by simpa using hg.inSetsNodup p hp⟩

theorem mapSet_absent {β : Type} {m : List (String × β)} {k : String} {v : β}
    (h : k ∉ keys m) : mapSet m k v = m ++ [(k, v)] := by
  induction m with
  | nil => rfl
  | cons p rest ih =>
      obtain ⟨k0, v0⟩ := p
      have hk : ¬ k0 = k := by
        intro e
        exact h (by
          rw [← e]
          exact List.mem_cons_self _ _)
      rw [mapSet, if_neg hk, List.cons_append, ih (fun hx => h (List.mem_cons_of_mem _ hx))]

theorem setAdd_absent {s : List String} {a : String} (h : a ∉ s) : setAdd s a = s ++ [a] := by
  rw [setAdd]
  cases hs : setHas s a
  · rfl
  · exact absurd (setHas_iff.1 hs) h

theorem mapFromPairs_aux {β : Type} (l acc : List (String × β))
    (hn : (keys l).Nodup) (hd : ∀ k ∈ keys l, k ∉ keys acc) :
    l.foldl (fun m p => mapSet m p.1 p.2) acc = acc ++ l := by
  induction l generalizing acc with
  | nil => simp
  | cons p rest ih =>
      obtain ⟨k, v⟩ := p
      have hn' : k ∉ keys rest ∧ (keys rest).Nodup := by
        simpa [keys] using hn
      rw [List.foldl_cons]
      have hks : mapSet acc k v = acc ++ [(k, v)] :=
        mapSet_absent (hd k (List.mem_cons_self _ _))
      have hd' : ∀ x ∈ keys rest, x ∉ keys (acc ++ [(k, v)]) := by
        intro x hx
        rw [show keys (acc ++ [(k, v)]) = keys acc ++ [k] from by simp [keys]]
        intro hmem
        rcases List.mem_append.1 hmem with h1 | h1
        · exact hd x (List.mem_cons_of_mem _ hx) h1
        · simp at h1
          subst h1
          exact hn'.1 hx
      rw [hks, ih _ hn'.2 hd']
      simp

theorem mapFromPairs_eq {β : Type} {l : List (String × β)} (hn : (keys l).Nodup) :
    mapFromPairs l = l := by
  have := mapFromPairs_aux l [] hn (by simp [keys])
  simpa [mapFromPairs] using this

theorem setFromList_aux (l acc : List String) (hn : l.Nodup) (hd : ∀ a ∈ l, a ∉ acc) :
    l.foldl setAdd acc = acc ++ l := by
  induction l generalizing acc with
  | nil => simp
  | cons a rest ih =>
      have hn' : a ∉ rest ∧ rest.Nodup := by simpa using hn
      have hd' : ∀ x ∈ rest, x ∉ acc ++ [a] := by
        intro x hx hmem
        rcases List.mem_append.1 hmem with h1 | h1
        · exact hd x (List.mem_cons_of_mem _ hx) h1
        · simp at h1
          subst h1
          exact hn'.1 hx
      rw [List.foldl_cons, setAdd_absent (hd a (List.mem_cons_self _ _)), ih _ hn'.2 hd']
      simp

theorem setFromList_eq {l : List String} (hn : l.Nodup) : setFromList l = l := by
  have := setFromList_aux l [] hn (by simp)
  simpa [setFromList] using this

theorem decIndexEntry_enc (p : String × List String) :
    decIndexEntry (encIndexEntry p) = some p := by
  obtain ⟨k, vs⟩ := p
  have hs : decStrList (.arr (vs.map J.str)) = some vs := by
    rw [decStrList]
    induction vs with
    | nil => rfl
    | cons v rest ih =>
        rw [List.map_cons, List.mapM_cons]
        rw [show List.mapM decStr (rest.map J.str) = some rest from ih]
        rfl
  rw [encIndexEntry, decIndexEntry]
  rw [show decStr (.str k) = some k from rfl, hs]
  rfl

theorem decEdgeEntry_enc (p : String × Edge) :
    decEdgeEntry (encEdgeEntry p) = some p := by
  obtain ⟨k, e⟩ := p
  rfl

theorem mapM_decIndexEntry (l : List (String × List String)) :
    (l.map encIndexEntry).mapM decIndexEntry = some l := by
  induction l with
  | nil => rfl
  | cons p rest ih =>
      rw [List.map_cons, List.mapM_cons, decIndexEntry_enc, ih]
      rfl

theorem mapM_decEdgeEntry (l : List (String × Edge)) :
    (l.map encEdgeEntry).mapM decEdgeEntry = some l := by
  induction l with
  | nil => rfl
  | cons p rest ih =>
      rw [List.map_cons, List.mapM_cons, decEdgeEntry_enc, ih]
      rfl

theorem deserialize_serialize {g : Graph} (h : GraphWF g = true) :
    deserialize (serialize g) = some g := by
  rw [GraphWF] at h
  simp only [Bool.and_eq_true, decide_eq_true_eq, List.all_eq_true] at h
  obtain ⟨⟨⟨⟨hkn, hki⟩, hke⟩, hsn⟩, hsi⟩ := h
  rw [serialize, deserialize]
  rw [show mapGet? [("nodes", J.arr (g.nodes.map encIndexEntry)),
        ("incomingEdges", J.arr (g.incomingEdges.map encIndexEntry)),
        ("edges", J.arr (g.edges.map encEdgeEntry))] "nodes" =
      some (J.arr (g.nodes.map encIndexEntry)) from by rfl]
  simp only [Option.bind_eq_bind, Option.some_bind]
  rw [show mapGet? [("nodes", J.arr (g.nodes.map encIndexEntry)),
        ("incomingEdges", J.arr (g.incomingEdges.map encIndexEntry)),
        ("edges", J.arr (g.edges.map encEdgeEntry))] "incomingEdges" =
      some (J.arr (g.incomingEdges.map encIndexEntry)) from by rfl]
  simp only [Option.some_bind]
  rw [show mapGet? [("nodes", J.arr (g.nodes.map encIndexEntry)),
        ("incomingEdges", J.arr (g.incomingEdges.map encIndexEntry)),
        ("edges", J.arr (g.edges.map encEdgeEntry))] "edges" =
      some (J.arr (g.edges.map encEdgeEntry)) from by rfl]
  simp only [Option.some_bind]
  rw [mapM_decIndexEntry, mapM_decIndexEntry, mapM_decEdgeEntry]
  simp only [Option.some_bind]
  have hn : (g.nodes.map fun p => (p.1, setFromList p.2)) = g.nodes := by
    apply List.map_congr_left ?_ |>.trans (List.map_id g.nodes)
    intro p hp
    rw [setFromList_eq (hsn p hp)]
    simp
  have hi : (g.incomingEdges.map fun p => (p.1, setFromList p.2)) = g.incomingEdges := by
    apply List.map_congr_left ?_ |>.trans (List.map_id g.incomingEdges)
    intro p hp
    rw [setFromList_eq (hsi p hp)]
    simp
  rw [hn, hi, mapFromPairs_eq hkn, mapFromPairs_eq hki, mapFromPairs_eq hke]
  rfl

/-- C9: `deserialize (serialize g)` rebuilds a store observably
equivalent to `g` — the same node set, the same edge table with the same
types, and the same outgoing and incoming adjacency sets — for every
well-formed store record (`GraphWF` holds for every store the class can
reach; see `graphWF_of_inv`). -/
theorem c9_roundtrip (g : Graph) (h : GraphWF g = true) :
    ∃ g2, deserialize (serialize g) = some g2 ∧
      (∀ id, hasNode g2 id = hasNode g id) ∧
      (∀ k, mapGet? g2.edges k = mapGet? g.edges k) ∧
      (∀ id, adjGet g2.nodes id = adjGet g.nodes id) ∧
      (∀ id, adjGet g2.incomingEdges id = adjGet g.incomingEdges id) :=
  ⟨g, deserialize_serialize h, fun _ => rfl, fun _ => rfl, fun _ => rfl, fun _ => rfl⟩

/-- Witness for C9 at a concrete store: the two-edge store built by
`addEdge('A','B','t1'); addEdge('B','C','t2')` is well-formed and
round-trips. -/
theorem c9_witness :
    GraphWF (addEdge (addEdge Graph.empty "A" "B" "t1") "B" "C" "t2") = true ∧
    ∃ g2, deserialize (serialize (addEdge (addEdge Graph.empty "A" "B" "t1") "B" "C" "t2")) =
        some g2 ∧
      (∀ id, hasNode g2 id = hasNode (addEdge (addEdge Graph.empty "A" "B" "t1") "B" "C" "t2") id) ∧
      (∀ k, mapGet? g2.edges k =
        mapGet? (addEdge (addEdge Graph.empty "A" "B" "t1") "B" "C" "t2").edges k) ∧
      (∀ id, adjGet g2.nodes id =
        adjGet (addEdge (addEdge Graph.empty "A" "B" "t1") "B" "C" "t2").nodes id) ∧
      (∀ id, adjGet g2.incomingEdges id =
        adjGet (addEdge (addEdge Graph.empty "A" "B" "t1") "B" "C" "t2").incomingEdges id) :=
  ⟨by decide, c9_roundtrip _ (by decide)⟩

/-! ### Claim C6: `traverse` -/

/-- The `direction` option. -/
inductive Direction
  | outgoing
  | incoming
deriving DecidableEq, Repr

/-- The `strategy` option. -/
inductive Strategy
  | bfs
  | dfs
deriving DecidableEq, Repr

/-- The adjacency index selected by `direction`. -/
def adjFor (g : Graph) : Direction → List (String × List String)
  | .outgoing => g.nodes
  | .incoming => g.incomingEdges

/-- The edge-table key consulted when stepping from `current` to `neighbor`. -/
def stepKey (dir : Direction) (current neighbor : String) : String :=
  match dir with
  | .outgoing => edgeKey current neighbor
  | .incoming => edgeKey neighbor current

/-- `!types || types.includes(ty)`, with `none` for the absent filter. -/
def typeMatches (types : Option (List String)) (ty : String) : Bool :=
  match types with
  | none => true
  | some ts => setHas ts ty

/-- The neighbour-loop test of `traverse`: the edge record exists and its
type passes the filter. -/
def followEdge (g : Graph) (types : Option (List String)) (dir : Direction)
    (current neighbor : String) : Bool :=
  match mapGet? g.edges (stepKey dir current neighbor) with
  | none => false
  | some e => typeMatches types e.type

/-- All ids appearing in the adjacency sets of an index. -/
def adjValues (m : List (String × List String)) : List String :=
  (m.map Prod.snd).flatten

/-- Total size of the adjacency sets of an index. -/
def sumAdj (m : List (String × List String)) : Nat :=
  (m.map (fun p => p.2.length)).sum

theorem mem_adjValues {m : List (String × List String)} {k x : String} {s : List String}
    (h : (k, s) ∈ m) (hx : x ∈ s) : x ∈ adjValues m :=
  List.mem_flatten.2 ⟨s, List.mem_map.2 ⟨(k, s), h, rfl⟩, hx⟩

theorem adjGet_length_le {m : List (String × List String)} {k : String} :
    (adjGet m k).length ≤ sumAdj m := by
  rw [adjGet]
  cases hm : mapGet? m k with
  | none => simp
  | some s =>
      have : (k, s) ∈ m := mapGet?_mem hm
      have hmem : s.length ∈ m.map (fun p => p.2.length) :=
        List.mem_map.2 ⟨(k, s), this, rfl⟩
      simpa [sumAdj] using List.single_le_sum (fun x _ => Nat.zero_le x) _ hmem

theorem mem_adjGet_mem_adjValues {m : List (String × List String)} {k x : String}
    (h : x ∈ adjGet m k) : x ∈ adjValues m := by
  rw [adjGet] at h
  cases hm : mapGet? m k with
  | none => rw [hm] at h; simp at h
  | some s =>
      rw [hm] at h
      exact mem_adjValues (mapGet?_mem hm) h

theorem mem_of_mem_dropLast {l : List α} {x : α} (h : x ∈ l.dropLast) : x ∈ l := by
  induction l with
  | nil => simpa using h
  | cons a rest ih =>
      cases rest with
      | nil => simp at h
      | cons b rest2 =>
          rw [List.dropLast_cons₂, List.mem_cons] at h
          rcases h with rfl | h
          · exact List.mem_cons_self _ _
          · exact List.mem_cons_of_mem _ (ih h)

/-- How many candidate ids are still unvisited; the primary termination
measure of the traversal loop. -/
def remaining (cands visited : List String) : Nat :=
  (cands.toFinset \ visited.toFinset).card

theorem remaining_mono {cands v v' : List String} (h : ∀ x ∈ v, x ∈ v') :
    remaining cands v' ≤ remaining cands v := by
  apply Finset.card_le_card
  apply Finset.sdiff_subset_sdiff (le_refl _)
  intro x hx
  rw [List.mem_toFinset] at hx ⊢
  exact h x hx

theorem remaining_lt {cands v : List String} {c : String} (hc : c ∈ cands) (hv : c ∉ v) :
    remaining cands (v ++ [c]) < remaining cands v := by
  apply Finset.card_lt_card
  constructor
  · apply Finset.sdiff_subset_sdiff (le_refl _)
    intro x hx
    rw [List.mem_toFinset] at hx ⊢
    exact List.mem_append.2 (Or.inl hx)
  · intro hsub
    have hcmem : c ∈ cands.toFinset \ v.toFinset := by
      rw [Finset.mem_sdiff, List.mem_toFinset, List.mem_toFinset]
      exact ⟨hc, hv⟩
    have := hsub hcmem
    rw [Finset.mem_sdiff, List.mem_toFinset, List.mem_toFinset] at this
    exact this.2 (List.mem_append.2 (Or.inr (List.mem_singleton.2 rfl)))

/-- Dequeue one id: `bfs` uses `shift()` (front), `dfs` uses `pop()` (back);
returns the id and the remaining queue. -/
def popNode (strategy : Strategy) (queue : List String) (h : queue ≠ []) :
    String × List String :=
  match strategy with
  | .dfs => (queue.getLast h, queue.dropLast)
  | .bfs => (queue.head h, queue.tail)

theorem popNode_fst_mem {strategy : Strategy} {queue : List String} {h : queue ≠ []} :
    (popNode strategy queue h).1 ∈ queue := by
  cases strategy
  · exact List.head_mem h
  · exact List.getLast_mem h

theorem popNode_snd_sub {strategy : Strategy} {queue : List String} {h : queue ≠ []} :
    ∀ x ∈ (popNode strategy queue h).2, x ∈ queue := by
  cases strategy
  · exact fun x hx => List.mem_of_mem_tail hx
  · exact fun x hx => mem_of_mem_dropLast hx

theorem popNode_snd_len {strategy : Strategy} {queue : List String} {h : queue ≠ []} :
    (popNode strategy queue h).2.length < queue.length := by
  have hpos : 0 < queue.length := List.length_pos.2 h
  cases strategy
  · cases queue with
    | nil => exact absurd rfl h
    | cons a q => simp [popNode]
  · rw [show (popNode Strategy.dfs queue h).2 = queue.dropLast from rfl,
      List.length_dropLast]
    omega

/-- The `while` loop of `traverse`.  The `visited` set and the `result`
array of the source always hold the same ids in the same order (ids are
appended to both at the same moment), so a single list models both.
`cands` collects every id that can ever enter the queue; `hq` and `hsub`
record that fact for termination. -/
def traverseLoop (g : Graph) (types : Option (List String)) (dir : Direction)
    (strategy : Strategy) (cands : List String) (queue visited : List String)
    (hq : ∀ x ∈ queue, x ∈ cands)
    (hsub : ∀ x ∈ adjValues (adjFor g dir), x ∈ cands) : List String :=
  if hq0 : queue = [] then visited
  else
    let current := (popNode strategy queue hq0).1
    let rest := (popNode strategy queue hq0).2
    if hv : current ∈ visited then
      traverseLoop g types dir strategy cands rest visited
        (fun x hx => hq x (popNode_snd_sub x hx)) hsub
    else
      let visited' := visited ++ [current]
      let neighbors := adjGet (adjFor g dir) current
      let pushed := neighbors.filter
        (fun nb => followEdge g types dir current nb && !(decide (nb ∈ visited')))
      traverseLoop g types dir strategy cands (rest ++ pushed) visited'
        (by
          intro x hx
          rcases List.mem_append.1 hx with h1 | h1
          · exact hq x (popNode_snd_sub x h1)
          · exact hsub x (mem_adjGet_mem_adjValues (List.mem_of_mem_filter h1)))
        hsub
termination_by remaining cands visited * (sumAdj (adjFor g dir) + 2) + queue.length
decreasing_by
  · have h1 : (popNode strategy queue hq0).2.length < queue.length := popNode_snd_len
    omega
  · have hlt : remaining cands (visited ++ [current]) < remaining cands visited :=
      remaining_lt (hq current popNode_fst_mem) hv
    have hpush : pushed.length ≤ sumAdj (adjFor g dir) := by
      calc pushed.length ≤ neighbors.length := List.length_filter_le _ _
      _ ≤ sumAdj (adjFor g dir) := adjGet_length_le
    have hrlen : rest.length < queue.length := popNode_snd_len
    have hq1 : (rest ++ pushed).length = rest.length + pushed.length := List.length_append _ _
    have hK : remaining cands (visited ++ [current]) + 1 ≤ remaining cands visited := hlt
    calc remaining cands (visited ++ [current]) * (sumAdj (adjFor g dir) + 2) +
        (rest ++ pushed).length
        ≤ remaining cands (visited ++ [current]) * (sumAdj (adjFor g dir) + 2) +
          (queue.length - 1 + sumAdj (adjFor g dir)) := by omega
      _ < remaining cands visited * (sumAdj (adjFor g dir) + 2) + queue.length := by
          have := Nat.mul_le_mul_right (sumAdj (adjFor g dir) + 2) hK
          rw [Nat.add_mul] at this
          omega

/-- `traverse(startNodeId, { edgeTypes, direction, strategy })`. -/
def traverse (g : Graph) (startNodeId : String) (types : Option (List String))
    (dir : Direction) (strategy : Strategy) : List String :=
  if mapHas g.nodes startNodeId then
    traverseLoop g types dir strategy (startNodeId :: adjValues (adjFor g dir))
      [startNodeId] []
      (by
        intro x hx
        rw [List.mem_singleton] at hx
        exact hx ▸ List.mem_cons_self _ _)
      (fun x hx => List.mem_cons_of_mem _ hx)
  else []

theorem traverseLoop_nodup (g : Graph) (types : Option (List String)) (dir : Direction)
    (strategy : Strategy) (cands : List String) (queue visited : List String)
    (hq : ∀ x ∈ queue, x ∈ cands) (hsub : ∀ x ∈ adjValues (adjFor g dir), x ∈ cands) :
    visited.Nodup → (traverseLoop g types dir strategy cands queue visited hq hsub).Nodup := by
  induction queue, visited, hq, hsub using traverseLoop.induct g types dir strategy cands with
  | case1 visited hsub hq =>
      intro hn
      rw [traverseLoop]
      simp only [dif_pos rfl]
      exact hn
  | case2 queue visited hq hsub h current rest hcur ih =>
      intro hn
      rw [traverseLoop]
      simp only [dif_neg h, dif_pos hcur]
      exact ih hn
  | case3 queue visited hq hsub h current rest hcur visited2 neighbors pushed ih =>
      intro hn
      rw [traverseLoop]
      simp only [dif_neg h, dif_neg hcur]
      refine ih ?_
      refine List.Nodup.append hn (by simp) ?_
      intro x hx hx'
      rw [List.mem_singleton] at hx'
      subst hx'
      exact hcur hx

/-- C6: for every graph and options, `traverse` visits each node at most
once — the returned sequence has no duplicates under both the `bfs`
strategy (dequeue from the front) and the `dfs` strategy (dequeue from
the back) — and when the start node is absent it returns the empty
sequence without throwing. -/
theorem c6_traverse (g : Graph) (startNodeId : String) (types : Option (List String))
    (dir : Direction) (strategy : Strategy) :
    (traverse g startNodeId types dir strategy).Nodup ∧
    (mapHas g.nodes startNodeId = false → traverse g startNodeId types dir strategy = []) := by
  constructor
  · rw [traverse]
    by_cases hh : mapHas g.nodes startNodeId = true
    · rw [if_pos hh]
      exact traverseLoop_nodup g types dir strategy _ _ _ _ _ List.nodup_nil
    · rw [if_neg hh]
      exact List.nodup_nil
  · intro h
    rw [traverse, if_neg (by rw [h]; exact Bool.false_ne_true)]

/-- Witness for C6: on the empty store with an absent start node the
hypothesis of the second conjunct holds and the traversal is empty. -/
theorem c6_witness :
    mapHas Graph.empty.nodes "A" = false ∧
    traverse Graph.empty "A" none Direction.outgoing Strategy.bfs = [] ∧
    (traverse Graph.empty "A" none Direction.outgoing Strategy.bfs).Nodup :=
  ⟨rfl, (c6_traverse Graph.empty "A" none Direction.outgoing Strategy.bfs).2 rfl,
    (c6_traverse Graph.empty "A" none Direction.outgoing Strategy.bfs).1⟩

/-! ### Claim C7: cycle detection

The two DFS helpers of the source recurse only into neighbours that are
neither `visiting` nor `visited`, so the recursion depth is bounded by
the number of distinct ids that can be marked `visiting` — node keys, on
every store whose adjacency sets mention only present nodes (all
reachable stores, by `Inv`).  The helpers therefore carry a depth budget
of `g.nodes.length + 1`, which such runs can never exhaust; the claims
below are settled on concrete stores where the budget is visibly ample. -/

/-- `_detectCycleUtil(nodeId, visiting, visited, edgeTypes)`, threading the
two shared sets; the first component is the boolean result.  The source's
early `return true` is modelled by short-circuiting the fold over the
neighbour set: once the accumulator holds `true` the remaining neighbours
change nothing, exactly as code after a `return` runs never. -/
def detectCycleUtil (g : Graph) (types : Option (List String)) :
    Nat → String → List String → List String → Bool × List String × List String
  | 0, _, visiting, visited => (false, visiting, visited)
  | fuel + 1, nodeId, visiting, visited =>
      let start : Bool × List String × List String := (false, setAdd visiting nodeId, visited)
      let r := (adjGet g.nodes nodeId).foldl
        (fun acc nb =>
          match acc with
          | (true, a, b) => (true, a, b)
          | (false, a, b) =>
              if followEdge g types .outgoing nodeId nb then
                if nb ∈ a then (true, a, b)
                else if nb ∈ b then (false, a, b)
                else detectCycleUtil g types fuel nb a b
              else (false, a, b))
        start
      match r with
      | (true, a, b) => (true, a, b)
      | (false, a, b) => (false, setDelete a nodeId, setAdd b nodeId)

/-- The outer loop of `hasCircularDependency`, sharing `visiting`/`visited`
across roots and returning on the first cycle. -/
def detectCycleOuter (g : Graph) (types : Option (List String)) :
    List String → List String → List String → Bool
  | [], _, _ => false
  | n :: rest, visiting, visited =>
      match detectCycleUtil g types (g.nodes.length + 1) n visiting visited with
      | (true, _, _) => true
      | (false, a, b) => detectCycleOuter g types rest a b

/-- `hasCircularDependency({ edgeTypes })`. -/
def hasCircularDependency (g : Graph) (types : Option (List String)) : Bool :=
  detectCycleOuter g types (keys g.nodes) [] []

/-- `_findCycleUtil(nodeId, visiting, visited, edgeTypes, path)`, threading
`visiting`, `visited` and `path`; the first component is the found cycle.
On a back-edge to a gray node the source slices `path` from
`path.indexOf(neighborId)` and appends the neighbour once more. -/
def findCycleUtil (g : Graph) (types : Option (List String)) :
    Nat → String → List String → List String → List String →
      Option (List String) × List String × List String × List String
  | 0, _, visiting, visited, path => (none, visiting, visited, path)
  | fuel + 1, nodeId, visiting, visited, path =>
      let start : Option (List String) × List String × List String × List String :=
        (none, setAdd visiting nodeId, visited, path ++ [nodeId])
      let r := (adjGet g.nodes nodeId).foldl
        (fun acc nb =>
          match acc with
          | (some cp, a, b, c) => (some cp, a, b, c)
          | (none, a, b, c) =>
              if followEdge g types .outgoing nodeId nb then
                if nb ∈ a then
                  (some (c.drop (c.findIdx (fun x => x == nb)) ++ [nb]), a, b, c)
                else if nb ∈ b then (none, a, b, c)
                else findCycleUtil g types fuel nb a b c
              else (none, a, b, c))
        start
      match r with
      | (some cp, a, b, c) => (some cp, a, b, c)
      | (none, a, b, c) => (none, setDelete a nodeId, setAdd b nodeId, c.dropLast)

/-- The outer loop of `findCircularDependency`: a fresh `visiting` set and
path per root, a shared `visited` set. -/
def findCycleOuter (g : Graph) (types : Option (List String)) :
    List String → List String → Option (List String)
  | [], _ => none
  | n :: rest, visited =>
      if n ∈ visited then findCycleOuter g types rest visited
      else
        match findCycleUtil g types (g.nodes.length + 1) n [] visited [] with
        | (some cp, _, _, _) => some cp
        | (none, _, b, _) => findCycleOuter g types rest b

/-- `findCircularDependency({ edgeTypes })`. -/
def findCircularDependency (g : Graph) (types : Option (List String)) :
    Option (List String) :=
  findCycleOuter g types (keys g.nodes) []

/-- C7: on the two-node store built by `addEdge('A','B','dep');
addEdge('B','A','dep')`, `hasCircularDependency()` is true and
`findCircularDependency()` returns the path `['A','B','A']`; filtering by
an edge type unused by the cycle makes them return false and null. -/
theorem c7_cycle_detection :
    hasCircularDependency (addEdge (addEdge Graph.empty "A" "B" "dep") "B" "A" "dep") none = true ∧
    findCircularDependency (addEdge (addEdge Graph.empty "A" "B" "dep") "B" "A" "dep") none =
      some ["A", "B", "A"] ∧
    hasCircularDependency (addEdge (addEdge Graph.empty "A" "B" "dep") "B" "A" "dep")
      (some ["unused"]) = false ∧
    findCircularDependency (addEdge (addEdge Graph.empty "A" "B" "dep") "B" "A" "dep")
      (some ["unused"]) = none := by
  decide

/-! ### Claim C8: `getTree`

`_buildTreeNode` recurses only into neighbours not yet in the shared
`visited` set, and marks each node on entry, so its recursion depth is
bounded by the number of distinct ids that can ever be visited (the start
node and the adjacency values).  The helper carries that bound as an
explicit budget; `getTree` passes one more than the number of candidate
ids, and the sufficiency lemma below shows the budget is never exhausted. -/

/-- The `{ node, children }` objects returned by `getTree`. -/
inductive TreeNode
  | mk (node : String) (children : List TreeNode)

def TreeNode.node : TreeNode → String
  | .mk n _ => n

def TreeNode.children : TreeNode → List TreeNode
  | .mk _ cs => cs

mutual

/-- All node ids of a tree, in preorder. -/
def treeNodeIds : TreeNode → List String
  | .mk n cs => n :: treeForestIds cs

/-- All node ids of a list of trees. -/
def treeForestIds : List TreeNode → List String
  | [] => []
  | t :: ts => treeNodeIds t ++ treeForestIds ts

end

/-- `_buildTreeNode(nodeId, visited, edgeTypes, direction)`, threading the
shared `visited` set.  Marks the node, then folds over its neighbours:
an edge that is missing, filtered out, or leading to a visited node is
skipped; otherwise the child subtree is built recursively. -/
def buildTreeNode (g : Graph) (types : Option (List String)) (dir : Direction) :
    Nat → String → List String → TreeNode × List String
  | 0, nodeId, visited => (TreeNode.mk nodeId [], visited)
  | fuel + 1, nodeId, visited =>
      let start : List TreeNode × List String := ([], setAdd visited nodeId)
      let r := (adjGet (adjFor g dir) nodeId).foldl
        (fun acc nb =>
          if followEdge g types dir nodeId nb && !(decide (nb ∈ acc.2)) then
            let c := buildTreeNode g types dir fuel nb acc.2
            (acc.1 ++ [c.1], c.2)
          else acc)
        start
      (TreeNode.mk nodeId r.1, r.2)

/-- `getTree(startNodeId, { edgeTypes, direction })`. -/
def getTree (g : Graph) (startNodeId : String) (types : Option (List String))
    (dir : Direction) : Option TreeNode :=
  if mapHas g.nodes startNodeId then
    some (buildTreeNode g types dir
      ((startNodeId :: adjValues (adjFor g dir)).toFinset.card + 1) startNodeId []).1
  else none

/-- `x` can be reached from `start` by following edges that exist in the
edge table and pass the type filter, in the chosen direction. -/
inductive ReachableFrom (g : Graph) (types : Option (List String)) (dir : Direction)
    (start : String) : String → Prop
  | refl : ReachableFrom g types dir start start
  | step {x y : String} : ReachableFrom g types dir start x →
      y ∈ adjGet (adjFor g dir) x → followEdge g types dir x y = true →
      ReachableFrom g types dir start y

theorem treeForestIds_append (a b : List TreeNode) :
    treeForestIds (a ++ b) = treeForestIds a ++ treeForestIds b := by
  induction a with
  | nil => simp [treeForestIds]
  | cons t ts ih => simp [treeForestIds, ih]

/-- The conclusion of the budget-sufficiency lemma for `buildTreeNode` at a
given budget: on any unvisited candidate node with enough budget left, the
call marks exactly the preorder ids of the returned subtree, preserves
duplicate-freedom, and leaves every matching neighbour of every subtree
node inside the final visited set. -/
def BuildOK (g : Graph) (types : Option (List String)) (dir : Direction)
    (cands : List String) (fuel : Nat) : Prop :=
  ∀ nodeId visited, nodeId ∈ cands → nodeId ∉ visited →
    remaining cands visited + 1 ≤ fuel →
    ∃ ts, buildTreeNode g types dir fuel nodeId visited =
        (TreeNode.mk nodeId ts, visited ++ (nodeId :: treeForestIds ts)) ∧
      (visited.Nodup → (visited ++ (nodeId :: treeForestIds ts)).Nodup) ∧
      (∀ x ∈ nodeId :: treeForestIds ts, ∀ nb ∈ adjGet (adjFor g dir) x,
        followEdge g types dir x nb = true →
        nb ∈ visited ++ (nodeId :: treeForestIds ts))

theorem buildTreeFold (g : Graph) (types : Option (List String)) (dir : Direction)
    (cands : List String) (hsub : ∀ x ∈ adjValues (adjFor g dir), x ∈ cands)
    (fuel : Nat) (nodeId : String) (hm : BuildOK g types dir cands fuel) :
    ∀ (ns : List String), (∀ x ∈ ns, x ∈ adjValues (adjFor g dir)) →
    ∀ (accT : List TreeNode) (accV : List String), remaining cands accV + 1 ≤ fuel →
    ∃ newTs,
      ns.foldl (fun acc nb =>
          if followEdge g types dir nodeId nb && !(decide (nb ∈ acc.2)) then
            let c := buildTreeNode g types dir fuel nb acc.2
            (acc.1 ++ [c.1], c.2)
          else acc) (accT, accV) =
        (accT ++ newTs, accV ++ treeForestIds newTs) ∧
      (accV.Nodup → (accV ++ treeForestIds newTs).Nodup) ∧
      (∀ nb ∈ ns, followEdge g types dir nodeId nb = true →
        nb ∈ accV ++ treeForestIds newTs) ∧
      (∀ x ∈ treeForestIds newTs, ∀ nb ∈ adjGet (adjFor g dir) x,
        followEdge g types dir x nb = true → nb ∈ accV ++ treeForestIds newTs) := by
  intro ns
  induction ns with
  | nil =>
      intro _ accT accV _
      refine ⟨[], ?_, ?_, ?_, ?_⟩
      · simp [treeForestIds]
      · intro h
        simpa [treeForestIds] using h
      · simp
      · simp [treeForestIds]
  | cons nb rest ihr =>
      intro hns accT accV hrem
      by_cases hcond : (followEdge g types dir nodeId nb && !(decide (nb ∈ accV))) = true
      · have hpair := hcond
        rw [Bool.and_eq_true] at hpair
        have hfollow : followEdge g types dir nodeId nb = true := hpair.1
        have hnbv : nb ∉ accV := by simpa using hpair.2
        have hnbc : nb ∈ cands := hsub nb (hns nb (List.mem_cons_self _ _))
        obtain ⟨ts, heq, hnod, hclo⟩ := hm nb accV hnbc hnbv (by omega)
        rw [List.foldl_cons]
        have hstep : (if followEdge g types dir nodeId nb &&
              !(decide (nb ∈ (accT, accV).2)) then
            let c := buildTreeNode g types dir fuel nb (accT, accV).2
            ((accT, accV).1 ++ [c.1], c.2)
          else (accT, accV)) =
            (accT ++ [TreeNode.mk nb ts], accV ++ (nb :: treeForestIds ts)) := by
          rw [if_pos hcond]
          show (accT ++ [(buildTreeNode g types dir fuel nb accV).1],
            (buildTreeNode g types dir fuel nb accV).2) = _
          rw [heq]
        rw [hstep]
        have hrem2 : remaining cands (accV ++ (nb :: treeForestIds ts)) + 1 ≤ fuel := by
          have hmono := @remaining_mono cands accV (accV ++ (nb :: treeForestIds ts))
            (fun x hx => List.mem_append.2 (Or.inl hx))
          omega
        obtain ⟨newTs2, heq2, hnod2, hmem2, hclo2⟩ :=
          ihr (fun x hx => hns x (List.mem_cons_of_mem _ hx))
            (accT ++ [TreeNode.mk nb ts]) (accV ++ (nb :: treeForestIds ts)) hrem2
        have hforest : treeForestIds (TreeNode.mk nb ts :: newTs2) =
            (nb :: treeForestIds ts) ++ treeForestIds newTs2 := by
          simp [treeForestIds, treeNodeIds]
        refine ⟨TreeNode.mk nb ts :: newTs2, ?_, ?_, ?_, ?_⟩
        · rw [heq2, hforest]
          simp [List.append_assoc]
        · intro hnd
          have h1 := hnod2 (hnod hnd)
          rw [hforest]
          simpa [List.append_assoc] using h1
        · intro nb2 hnb2 hf2
          rw [hforest]
          rcases List.mem_cons.1 hnb2 with rfl | hnb2
          · simp
          · have := hmem2 nb2 hnb2 hf2
            simpa [List.append_assoc] using this
        · intro x hx nb2 hnb2 hf2
          rw [hforest] at hx ⊢
          rcases List.mem_append.1 hx with hx1 | hx1
          · have h5 := hclo x hx1 nb2 hnb2 hf2
            rcases List.mem_append.1 h5 with h6 | h6
            · exact List.mem_append.2 (Or.inl h6)
            · rcases List.mem_cons.1 h6 with rfl | h7
              · exact List.mem_append.2 (Or.inr (List.mem_cons_self _ _))
              · exact List.mem_append.2 (Or.inr (List.mem_cons_of_mem _
                  (List.mem_append.2 (Or.inl h7))))
          · have := hclo2 x hx1 nb2 hnb2 hf2
            simpa [List.append_assoc] using this
      · rw [List.foldl_cons]
        have hstep : (if followEdge g types dir nodeId nb &&
              !(decide (nb ∈ (accT, accV).2)) then
            let c := buildTreeNode g types dir fuel nb (accT, accV).2
            ((accT, accV).1 ++ [c.1], c.2)
          else (accT, accV)) = (accT, accV) := by
          rw [if_neg hcond]
        rw [hstep]
        obtain ⟨newTs, h1, h2, h3, h4⟩ := ihr (fun x hx => hns x (List.mem_cons_of_mem _ hx))
          accT accV hrem
        refine ⟨newTs, h1, h2, ?_, h4⟩
        intro nb2 hnb2 hf2
        rcases List.mem_cons.1 hnb2 with rfl | hnb2
        · have hmemv : nb2 ∈ accV := by
            by_contra hno
            exact hcond (by simp [hf2, hno])
          exact List.mem_append.2 (Or.inl hmemv)
        · exact h3 nb2 hnb2 hf2

theorem buildTree_master (g : Graph) (types : Option (List String)) (dir : Direction)
    (cands : List String) (hsub : ∀ x ∈ adjValues (adjFor g dir), x ∈ cands) :
    ∀ fuel, BuildOK g types dir cands fuel := by
  intro fuel
  induction fuel with
  | zero =>
      intro nodeId visited _ _ hf
      omega
  | succ fuel ih =>
      intro nodeId visited hc hv hf
      have hset : setAdd visited nodeId = visited ++ [nodeId] := setAdd_absent hv
      have hlt : remaining cands (visited ++ [nodeId]) < remaining cands visited :=
        remaining_lt hc hv
      obtain ⟨newTs, heq, hnod, hmem, hclo⟩ := buildTreeFold g types dir cands hsub fuel nodeId ih
        (adjGet (adjFor g dir) nodeId) (fun x hx => mem_adjGet_mem_adjValues hx)
        [] (visited ++ [nodeId]) (by omega)
      refine ⟨newTs, ?_, ?_, ?_⟩
      · show buildTreeNode g types dir (fuel + 1) nodeId visited = _
        rw [buildTreeNode, hset, heq]
        simp
      · intro hnd
        have hnd1 : (visited ++ [nodeId]).Nodup := by
          refine List.Nodup.append hnd (by simp) ?_
          intro x hx hx'
          rw [List.mem_singleton] at hx'
          subst hx'
          exact hv hx
        have := hnod hnd1
        simpa [List.append_assoc] using this
      · intro x hx nb hnb hfo
        rcases List.mem_cons.1 hx with rfl | hx
        · have := hmem nb hnb hfo
          simpa [List.append_assoc] using this
        · have := hclo x hx nb hnb hfo
          simpa [List.append_assoc] using this

/-- C8: `getTree` returns `null` when the start node is absent; otherwise
every node reachable from the start via matching edges appears exactly
once in the returned tree — never zero times and never more than once —
even when it is reachable via several paths or lies on a cycle. -/
theorem c8_getTree (g : Graph) (startNodeId : String) (types : Option (List String))
    (dir : Direction) :
    (mapHas g.nodes startNodeId = false → getTree g startNodeId types dir = none) ∧
    (∀ t, getTree g startNodeId types dir = some t →
      ∀ x, ReachableFrom g types dir startNodeId x → (treeNodeIds t).count x = 1) := by
  constructor
  · intro h
    rw [getTree, if_neg (by rw [h]; exact Bool.false_ne_true)]
  · intro t ht x hx
    by_cases hh : mapHas g.nodes startNodeId = true
    · rw [getTree, if_pos hh] at ht
      have hmaster := buildTree_master g types dir (startNodeId :: adjValues (adjFor g dir))
        (fun y hy => List.mem_cons_of_mem _ hy)
        ((startNodeId :: adjValues (adjFor g dir)).toFinset.card + 1)
        startNodeId [] (List.mem_cons_self _ _) (by simp)
        (by
          rw [remaining]
          simp)
      obtain ⟨ts, heq, hnod, hclo⟩ := hmaster
      rw [heq] at ht
      have ht' : t = TreeNode.mk startNodeId ts := by
        simpa using Option.some.inj ht.symm
      subst ht'
      have hids : treeNodeIds (TreeNode.mk startNodeId ts) =
          startNodeId :: treeForestIds ts := by
        rw [treeNodeIds]
      have hnodup : (treeNodeIds (TreeNode.mk startNodeId ts)).Nodup := by
        rw [hids]
        simpa using hnod (by simp)
      have hmem : x ∈ treeNodeIds (TreeNode.mk startNodeId ts) := by
        rw [hids]
        clear ht
        induction hx with
        | refl => exact List.mem_cons_self _ _
        | step hr hadj hfo ihx =>
            have := hclo _ (by simpa using ihx) _ hadj hfo
            simpa using this
      exact List.count_eq_one_of_mem hnodup hmem
    · rw [getTree, if_neg hh] at ht
      cases ht

/-- Witness for C8 on the diamond store `A→B, A→C, B→D, C→D`: `getTree('A')`
succeeds and `D`, reachable both via `B` and via `C`, appears exactly once. -/
theorem c8_witness :
    ∃ t, getTree (addEdge (addEdge (addEdge (addEdge Graph.empty "A" "B" "t") "A" "C" "t")
        "B" "D" "t") "C" "D" "t") "A" none Direction.outgoing = some t ∧
      (treeNodeIds t).count "D" = 1 := by
  refine ⟨TreeNode.mk "A" [TreeNode.mk "B" [TreeNode.mk "D" []], TreeNode.mk "C" []], rfl, ?_⟩
  refine (c8_getTree (addEdge (addEdge (addEdge (addEdge Graph.empty "A" "B" "t") "A" "C" "t")
      "B" "D" "t") "C" "D" "t") "A" none Direction.outgoing).2 _ rfl "D" ?_
  refine @ReachableFrom.step _ _ _ _ "B" "D" (@ReachableFrom.step _ _ _ _ "A" "B"
    ReachableFrom.refl ?_ ?_) ?_ ?_
  · decide
  · rfl
  · decide
  · rfl


/-! ### Claims C2-C5: the asynchronous tree executor

`executeOnTree` is modelled as a deterministic evaluator.  The cooperative
single-threaded interleaving is sequentialized: sibling subtrees run in
adjacency order (the source launches them in that order and no claim below
concerns cross-sibling interleaving).  A callback is a total function into
`Except String ρ` — its settled outcome.  A logical clock counts callback
invocations, and the `AbortSignal` is modelled as a predicate on that
clock, checked exactly where the source checks `signal.aborted`; the
source's `maxConcurrency` and `onProgress` options keep their `null`
defaults, whose branches the source then skips.  Under `fail-fast` the
evaluator stops launching further siblings once one rejects, matching the
value of the source's `Promise.all`.  The trace records each invocation
with the arguments the callback received. -/

/-- The `context` object passed to each callback (`siblings` is always
populated with `[]` by the source). -/
structure Ctx where
  depth : Nat
  path : List String
  parentNode : Option String
  edgeType : Option String
  siblings : List String
deriving DecidableEq, Repr

/-- The `{ node, result, error, isCircularRef, children }` records returned
by `executeOnTree`.  `null` and `undefined` results are both `none`. -/
inductive ExecNode (ρ : Type)
  | mk (node : String) (result : Option ρ) (error : Option String)
      (isCircularRef : Bool) (children : List (ExecNode ρ))

def ExecNode.node {ρ : Type} : ExecNode ρ → String
  | .mk n _ _ _ _ => n

def ExecNode.result {ρ : Type} : ExecNode ρ → Option ρ
  | .mk _ r _ _ _ => r

def ExecNode.error {ρ : Type} : ExecNode ρ → Option String
  | .mk _ _ e _ _ => e

def ExecNode.isCircularRef {ρ : Type} : ExecNode ρ → Bool
  | .mk _ _ _ c _ => c

def ExecNode.children {ρ : Type} : ExecNode ρ → List (ExecNode ρ)
  | .mk _ _ _ _ ks => ks

mutual

/-- Every record of an execution tree, preorder. -/
def execSubnodes {ρ : Type} : ExecNode ρ → List (ExecNode ρ)
  | .mk n r e c ks => .mk n r e c ks :: execSubnodesList ks

def execSubnodesList {ρ : Type} : List (ExecNode ρ) → List (ExecNode ρ)
  | [] => []
  | t :: ts => execSubnodes t ++ execSubnodesList ts

end

/-- One recorded callback invocation: the arguments received and the
logical clock at which it started. -/
structure InvokeEvent (ρ : Type) where
  node : String
  parentResult : Option ρ
  ctx : Ctx
  clock : Nat
deriving DecidableEq, Repr

/-- The mutable execution state: the `visited` key set, the
`resultCache`, the invocation clock and the trace. -/
structure ExecSt (ρ : Type) where
  visited : List String
  cache : List (String × Option ρ)
  clock : Nat
  trace : List (InvokeEvent ρ)
deriving DecidableEq, Repr

/-- The `errorStrategy` option. -/
inductive ErrorStrategy
  | failFast
  | collect
  | skipChildren
deriving DecidableEq, Repr

/-- A callback: node id, parent result, context, settled outcome. -/
def Cb (ρ : Type) : Type := String → Option ρ → Ctx → Except String ρ

/-- The visit key `` `${nodeId}::${edgeType}` `` (a `null` edge type prints
as `"null"`). -/
def visitKey (nodeId : String) (edgeType : Option String) : String :=
  nodeId ++ "::" ++ (match edgeType with | none => "null" | some t => t)

/-- The filtered neighbour list of `_executeTreeNode`: neighbours whose
edge record exists and passes the type filter, paired with the edge type. -/
def validNeighbors (g : Graph) (types : Option (List String)) (dir : Direction)
    (nodeId : String) : List (String × String) :=
  (adjGet (adjFor g dir) nodeId).filterMap fun nb =>
    match mapGet? g.edges (stepKey dir nodeId nb) with
    | none => none
    | some e => if typeMatches types e.type then some (nb, e.type) else none

/-- `_executeTreeNode`, sequentialized.  The `Nat` argument is a recursion
budget: each non-circular entry adds a fresh key to `visited`, so the
depth is bounded by the number of distinct visit keys; `executeOnTree`
passes one more than that, and the budget-sufficiency lemmas below show
the `0` case is unreachable. -/
def execTreeNode (g : Graph) {ρ : Type} (cb : Cb ρ) (types : Option (List String))
    (dir : Direction) (strat : ErrorStrategy) (sig : Nat → Bool) :
    Nat → String → Option ρ → Option String → Option String → Nat → List String →
      ExecSt ρ → Except String (ExecNode ρ) × ExecSt ρ
  | 0, _, _, _, _, _, _, st => (Except.error "out of budget", st)
  | fuel + 1, nodeId, parentResult, parentNode, edgeType, depth, path, st =>
      if sig st.clock then (Except.error "Execution aborted", st)
      else
        let vk := visitKey nodeId edgeType
        if vk ∈ st.visited then
          (Except.ok (ExecNode.mk nodeId ((mapGet? st.cache nodeId).getD none) none true []), st)
        else
          let ctx : Ctx := ⟨depth, path, parentNode, edgeType, []⟩
          let st2 : ExecSt ρ := {
            visited := st.visited ++ [vk]
            cache := st.cache
            clock := st.clock + 1
            trace := st.trace ++ [⟨nodeId, parentResult, ctx, st.clock⟩] }
          let runKids := fun (parentRes : Option ρ) (stk : ExecSt ρ) =>
            (validNeighbors g types dir nodeId).foldl
              (fun (acc : Except String (List (ExecNode ρ)) × ExecSt ρ) pr =>
                match acc.1 with
                | Except.error e => (Except.error e, acc.2)
                | Except.ok list =>
                    match execTreeNode g cb types dir strat sig fuel pr.1 parentRes
                        (some nodeId) (some pr.2) (depth + 1) (path ++ [nodeId]) acc.2 with
                    | (Except.ok t, sty) => (Except.ok (list ++ [t]), sty)
                    | (Except.error e, sty) =>
                        if strat = ErrorStrategy.failFast then (Except.error e, sty)
                        else (Except.ok (list ++ [ExecNode.mk pr.1 none (some e) false []]), sty))
              (Except.ok [], stk)
          match cb nodeId parentResult ctx with
          | Except.ok r =>
              let st3 := { st2 with cache := mapSet st2.cache nodeId (some r) }
              match runKids (some r) st3 with
              | (Except.error e, st4) => (Except.error e, st4)
              | (Except.ok kids, st4) =>
                  (Except.ok (ExecNode.mk nodeId (some r) none false kids), st4)
          | Except.error e =>
              let st3 := { st2 with cache := mapSet st2.cache nodeId none }
              if strat = ErrorStrategy.failFast then (Except.error e, st3)
              else if strat = ErrorStrategy.skipChildren then
                (Except.ok (ExecNode.mk nodeId none (some e) false []), st3)
              else
                match runKids none st3 with
                | (Except.error e2, st4) => (Except.error e2, st4)
                | (Except.ok kids, st4) =>
                    (Except.ok (ExecNode.mk nodeId none (some e) false kids), st4)

/-- Every visit key an execution starting at `start` can ever record. -/
def vkCands (g : Graph) (dir : Direction) (start : String) : List String :=
  visitKey start none ::
    ((adjValues (adjFor g dir)).map fun nb =>
      (g.edges.map fun p => visitKey nb (some p.2.type))).flatten

/-- `executeOnTree(startNodeId, callback, options)`; also returns the final
execution state so the trace is observable. -/
def executeOnTree (g : Graph) {ρ : Type} (cb : Cb ρ) (types : Option (List String))
    (dir : Direction) (strat : ErrorStrategy) (sig : Nat → Bool) (startNodeId : String) :
    Except String (ExecNode ρ) × ExecSt ρ :=
  if mapHas g.nodes startNodeId then
    execTreeNode g cb types dir strat sig ((vkCands g dir startNodeId).toFinset.card + 1)
      startNodeId none none none 0 [] ⟨[], [], 0, []⟩
  else
    (Except.error ("Start node '" ++ startNodeId ++ "' does not exist."), ⟨[], [], 0, []⟩)

/-- C2: on the chain `A→B→C` with a callback returning 10 at the root and
twice the parent result elsewhere, `executeOnTree('A', cb)` resolves with
results 10, 20, 40, and the callbacks are invoked in the order A, B, C —
each only after its parent's callback has settled. -/
theorem c2_executor_waterfall :
    (executeOnTree (addEdge (addEdge Graph.empty "A" "B" "dep") "B" "C" "dep")
      (fun _ pr _ => Except.ok (match pr with | none => (10 : Int) | some v => 2 * v))
      none Direction.outgoing ErrorStrategy.failFast (fun _ => false) "A").1 =
      Except.ok (ExecNode.mk "A" (some 10) none false
        [ExecNode.mk "B" (some 20) none false
          [ExecNode.mk "C" (some 40) none false []]]) ∧
    ((executeOnTree (addEdge (addEdge Graph.empty "A" "B" "dep") "B" "C" "dep")
      (fun _ pr _ => Except.ok (match pr with | none => (10 : Int) | some v => 2 * v))
      none Direction.outgoing ErrorStrategy.failFast (fun _ => false) "A").2.trace.map
        (fun e => e.node)) = ["A", "B", "C"] :=
  ⟨rfl, rfl⟩

/-- One step of the sibling fold of `_executeTreeNode` (the lambda inside
`execTreeNode`, named so that lemmas can speak about it). -/
def execKidsStep (g : Graph) {ρ : Type} (cb : Cb ρ) (types : Option (List String))
    (dir : Direction) (strat : ErrorStrategy) (sig : Nat → Bool) (fuel : Nat)
    (nodeId : String) (parentRes : Option ρ) (depth : Nat) (path : List String)
    (acc : Except String (List (ExecNode ρ)) × ExecSt ρ) (pr : String × String) :
    Except String (List (ExecNode ρ)) × ExecSt ρ :=
  match acc.1 with
  | Except.error e => (Except.error e, acc.2)
  | Except.ok list =>
      match execTreeNode g cb types dir strat sig fuel pr.1 parentRes
          (some nodeId) (some pr.2) (depth + 1) (path ++ [nodeId]) acc.2 with
      | (Except.ok t, sty) => (Except.ok (list ++ [t]), sty)
      | (Except.error e, sty) =>
          if strat = ErrorStrategy.failFast then (Except.error e, sty)
          else (Except.ok (list ++ [ExecNode.mk pr.1 none (some e) false []]), sty)

/-- The whole sibling fold of `_executeTreeNode`. -/
def execKids (g : Graph) {ρ : Type} (cb : Cb ρ) (types : Option (List String))
    (dir : Direction) (strat : ErrorStrategy) (sig : Nat → Bool) (fuel : Nat)
    (nodeId : String) (parentRes : Option ρ) (depth : Nat) (path : List String)
    (stk : ExecSt ρ) : Except String (List (ExecNode ρ)) × ExecSt ρ :=
  (validNeighbors g types dir nodeId).foldl
    (execKidsStep g cb types dir strat sig fuel nodeId parentRes depth path)
    (Except.ok [], stk)

/-- Unfolding equation for `execTreeNode` at a positive budget, with the
sibling fold folded into `execKids`. -/
theorem execTreeNode_succ_eq (g : Graph) {ρ : Type} (cb : Cb ρ)
    (types : Option (List String)) (dir : Direction) (strat : ErrorStrategy)
    (sig : Nat → Bool) (fuel : Nat) (nodeId : String) (parentResult : Option ρ)
    (parentNode edgeType : Option String) (depth : Nat) (path : List String)
    (st : ExecSt ρ) :
    execTreeNode g cb types dir strat sig (fuel + 1) nodeId parentResult parentNode
        edgeType depth path st =
      if sig st.clock then (Except.error "Execution aborted", st)
      else if visitKey nodeId edgeType ∈ st.visited then
        (Except.ok (ExecNode.mk nodeId ((mapGet? st.cache nodeId).getD none) none true []), st)
      else
        let ctx : Ctx := ⟨depth, path, parentNode, edgeType, []⟩
        let st2 : ExecSt ρ := {
          visited := st.visited ++ [visitKey nodeId edgeType]
          cache := st.cache
          clock := st.clock + 1
          trace := st.trace ++ [⟨nodeId, parentResult, ctx, st.clock⟩] }
        match cb nodeId parentResult ctx with
        | Except.ok r =>
            match execKids g cb types dir strat sig fuel nodeId (some r) depth path
                { st2 with cache := mapSet st2.cache nodeId (some r) } with
            | (Except.error e, st4) => (Except.error e, st4)
            | (Except.ok kids, st4) =>
                (Except.ok (ExecNode.mk nodeId (some r) none false kids), st4)
        | Except.error e =>
            if strat = ErrorStrategy.failFast then
              (Except.error e, { st2 with cache := mapSet st2.cache nodeId none })
            else if strat = ErrorStrategy.skipChildren then
              (Except.ok (ExecNode.mk nodeId none (some e) false []),
                { st2 with cache := mapSet st2.cache nodeId none })
            else
              match execKids g cb types dir strat sig fuel nodeId none depth path
                  { st2 with cache := mapSet st2.cache nodeId none } with
              | (Except.error e2, st4) => (Except.error e2, st4)
              | (Except.ok kids, st4) =>
                  (Except.ok (ExecNode.mk nodeId none (some e) false kids), st4) := rfl

/-- Wellformedness of one recorded invocation with respect to a trace:
either it is the root invocation (null parent result, depth 0, empty
path, null parent and edge type), or the trace contains its parent's
invocation, the depth is the parent's plus one, the path extends the
parent's by the parent id, the edge used exists in the edge table with
the recorded type and passes the filter, and the received parent result
is the settled outcome of the parent's callback. -/
def EventOK {ρ : Type} (g : Graph) (cb : Cb ρ) (types : Option (List String))
    (dir : Direction) (start : String) (trace : List (InvokeEvent ρ))
    (e : InvokeEvent ρ) : Prop :=
  (e.node = start ∧ e.parentResult = none ∧ e.ctx.depth = 0 ∧ e.ctx.path = [] ∧
    e.ctx.parentNode = none ∧ e.ctx.edgeType = none) ∨
  (∃ e2 ∈ trace, ∃ p ty edge,
    e.ctx.parentNode = some p ∧ e2.node = p ∧
    e.ctx.depth = e2.ctx.depth + 1 ∧ e.ctx.path = e2.ctx.path ++ [p] ∧
    e.ctx.edgeType = some ty ∧
    mapGet? g.edges (stepKey dir p e.node) = some edge ∧ edge.type = ty ∧
    typeMatches types ty = true ∧
    e.parentResult = (cb e2.node e2.parentResult e2.ctx).toOption)

/-- The same linking condition, for the arguments of a pending call. -/
def CtxLink {ρ : Type} (g : Graph) (cb : Cb ρ) (types : Option (List String))
    (dir : Direction) (start : String) (st : ExecSt ρ) (nodeId : String)
    (parentResult : Option ρ) (parentNode edgeType : Option String) (depth : Nat)
    (path : List String) : Prop :=
  (nodeId = start ∧ parentResult = none ∧ depth = 0 ∧ path = [] ∧
    parentNode = none ∧ edgeType = none) ∨
  (∃ e2 ∈ st.trace, ∃ p ty edge,
    parentNode = some p ∧ e2.node = p ∧
    depth = e2.ctx.depth + 1 ∧ path = e2.ctx.path ++ [p] ∧
    edgeType = some ty ∧
    mapGet? g.edges (stepKey dir p nodeId) = some edge ∧ edge.type = ty ∧
    typeMatches types ty = true ∧
    parentResult = (cb e2.node e2.parentResult e2.ctx).toOption)

theorem EventOK_mono {ρ : Type} {g : Graph} {cb : Cb ρ} {types : Option (List String)}
    {dir : Direction} {start : String} {tr tr2 : List (InvokeEvent ρ)}
    {e : InvokeEvent ρ} (hsub : ∀ x ∈ tr, x ∈ tr2)
    (h : EventOK g cb types dir start tr e) : EventOK g cb types dir start tr2 e := by
  rcases h with h | ⟨e2, he2, rest⟩
  · exact Or.inl h
  · exact Or.inr ⟨e2, hsub e2 he2, rest⟩

/-- How the execution state may evolve: the visited keys only grow, the
trace is only appended to, and every trace entry is either old or was
recorded at an unaborted clock and is well-linked in the new trace. -/
def StGrow {ρ : Type} (g : Graph) (cb : Cb ρ) (types : Option (List String))
    (dir : Direction) (start : String) (sig : Nat → Bool) (st st2 : ExecSt ρ) : Prop :=
  (∀ x ∈ st.visited, x ∈ st2.visited) ∧
  (∃ new, st2.trace = st.trace ++ new) ∧
  (∀ e ∈ st2.trace, e ∈ st.trace ∨
    (sig e.clock = false ∧ EventOK g cb types dir start st2.trace e))

theorem StGrow_refl {ρ : Type} (g : Graph) (cb : Cb ρ) (types : Option (List String))
    (dir : Direction) (start : String) (sig : Nat → Bool) (st : ExecSt ρ) :
    StGrow g cb types dir start sig st st :=
  ⟨fun _ hx => hx, ⟨[], by simp⟩, fun e he => Or.inl he⟩

theorem StGrow_trans {ρ : Type} {g : Graph} {cb : Cb ρ} {types : Option (List String)}
    {dir : Direction} {start : String} {sig : Nat → Bool} {st1 st2 st3 : ExecSt ρ}
    (h12 : StGrow g cb types dir start sig st1 st2)
    (h23 : StGrow g cb types dir start sig st2 st3) :
    StGrow g cb types dir start sig st1 st3 := by
  obtain ⟨hv12, ⟨n12, ht12⟩, he12⟩ := h12
  obtain ⟨hv23, ⟨n23, ht23⟩, he23⟩ := h23
  have hsub23 : ∀ x ∈ st2.trace, x ∈ st3.trace := by
    intro x hx
    rw [ht23]
    exact List.mem_append.2 (Or.inl hx)
  refine ⟨fun x hx => hv23 x (hv12 x hx), ⟨n12 ++ n23, by rw [ht23, ht12, List.append_assoc]⟩, ?_⟩
  intro e he
  rcases he23 e he with he2 | ⟨hs, hok⟩
  · rcases he12 e he2 with he1 | ⟨hs, hok⟩
    · exact Or.inl he1
    · exact Or.inr ⟨hs, EventOK_mono hsub23 hok⟩
  · exact Or.inr ⟨hs, hok⟩

theorem foldStGrow {ρ α : Type} (g : Graph) (cb : Cb ρ) (types : Option (List String))
    (dir : Direction) (start : String) (sig : Nat → Bool)
    (step : Except String (List (ExecNode ρ)) × ExecSt ρ → α →
      Except String (List (ExecNode ρ)) × ExecSt ρ)
    (I : ExecSt ρ → Prop) (l : List α)
    (hstep : ∀ acc x, x ∈ l → I acc.2 →
      StGrow g cb types dir start sig acc.2 (step acc x).2 ∧ I (step acc x).2) :
    ∀ acc, I acc.2 →
      StGrow g cb types dir start sig acc.2 (l.foldl step acc).2 ∧ I (l.foldl step acc).2 := by
  induction l with
  | nil =>
      intro acc hI
      exact ⟨StGrow_refl g cb types dir start sig acc.2, hI⟩
  | cons x rest ih =>
      intro acc hI
      rw [List.foldl_cons]
      obtain ⟨h1, hI1⟩ := hstep acc x (List.mem_cons_self _ _) hI
      obtain ⟨h2, hI2⟩ := ih (fun a y hy hIa => hstep a y (List.mem_cons_of_mem _ hy) hIa)
        (step acc x) hI1
      exact ⟨StGrow_trans h1 h2, hI2⟩

theorem mem_validNeighbors {g : Graph} {types : Option (List String)} {dir : Direction}
    {nodeId : String} {pr : String × String} (h : pr ∈ validNeighbors g types dir nodeId) :
    pr.1 ∈ adjGet (adjFor g dir) nodeId ∧
    ∃ e, mapGet? g.edges (stepKey dir nodeId pr.1) = some e ∧ e.type = pr.2 ∧
      typeMatches types pr.2 = true := by
  rw [validNeighbors] at h
  obtain ⟨nb, hnb, heq⟩ := List.mem_filterMap.1 h
  cases he : mapGet? g.edges (stepKey dir nodeId nb) with
  | none =>
      rw [he] at heq
      cases heq
  | some e =>
      rw [he] at heq
      replace heq : (if typeMatches types e.type = true then some (nb, e.type) else none)
          = some pr := heq
      by_cases ht : typeMatches types e.type = true
      · rw [if_pos ht] at heq
        have hpr := Option.some.inj heq
        rw [← hpr]
        exact ⟨hnb, e, he, rfl, ht⟩
      · rw [if_neg ht] at heq
        cases heq

theorem execTreeNode_grow {ρ : Type} (g : Graph) (cb : Cb ρ) (types : Option (List String))
    (dir : Direction) (strat : ErrorStrategy) (sig : Nat → Bool) (start : String) :
    ∀ (fuel : Nat) (nodeId : String) (parentResult : Option ρ)
      (parentNode edgeType : Option String) (depth : Nat) (path : List String)
      (st : ExecSt ρ),
      CtxLink g cb types dir start st nodeId parentResult parentNode edgeType depth path →
      StGrow g cb types dir start sig st
        (execTreeNode g cb types dir strat sig fuel nodeId parentResult parentNode
          edgeType depth path st).2 ∧
      (∀ t, (execTreeNode g cb types dir strat sig fuel nodeId parentResult parentNode
          edgeType depth path st).1 = Except.ok t → ExecNode.node t = nodeId) := by
  intro fuel
  induction fuel with
  | zero =>
      intro nodeId parentResult parentNode edgeType depth path st _
      exact ⟨StGrow_refl g cb types dir start sig st, fun t ht => by cases ht⟩
  | succ fuel ih =>
      intro nodeId parentResult parentNode edgeType depth path st hlink
      rw [execTreeNode_succ_eq]
      by_cases hsig : sig st.clock = true
      · rw [if_pos hsig]
        exact ⟨StGrow_refl g cb types dir start sig st, fun t ht => by cases ht⟩
      · rw [if_neg hsig]
        by_cases hvk : visitKey nodeId edgeType ∈ st.visited
        · rw [if_pos hvk]
          refine ⟨StGrow_refl g cb types dir start sig st, fun t ht => ?_⟩
          have := Except.ok.inj ht
          rw [← this]
          rfl
        · rw [if_neg hvk]
          simp only []
          set ctx : Ctx := ⟨depth, path, parentNode, edgeType, []⟩ with hctx
          set ev : InvokeEvent ρ := ⟨nodeId, parentResult, ctx, st.clock⟩ with hev
          have hgrowgen : ∀ c : List (String × Option ρ),
              StGrow g cb types dir start sig st
                ⟨st.visited ++ [visitKey nodeId edgeType], c, st.clock + 1,
                  st.trace ++ [ev]⟩ := by
            intro c
            refine ⟨fun x hx => List.mem_append.2 (Or.inl hx), ⟨[ev], rfl⟩, ?_⟩
            intro e he
            rcases List.mem_append.1 he with he | he
            · exact Or.inl he
            · rw [List.mem_singleton] at he
              subst he
              refine Or.inr ⟨by simpa using hsig, ?_⟩
              rcases hlink with ⟨h1, h2, h3, h4, h5, h6⟩ | ⟨e2, he2, p, ty, edge, hs⟩
              · exact Or.inl ⟨h1, h2, h3, h4, h5, h6⟩
              · exact Or.inr ⟨e2, List.mem_append.2 (Or.inl he2), p, ty, edge, hs.1, hs.2.1,
                  hs.2.2.1, hs.2.2.2.1, hs.2.2.2.2.1, hs.2.2.2.2.2.1, hs.2.2.2.2.2.2.1,
                  hs.2.2.2.2.2.2.2.1, hs.2.2.2.2.2.2.2.2⟩
          have hkids : ∀ (pres : Option ρ) (c : List (String × Option ρ)),
              pres = (cb nodeId parentResult ctx).toOption →
              StGrow g cb types dir start sig
                (⟨st.visited ++ [visitKey nodeId edgeType], c, st.clock + 1,
                  st.trace ++ [ev]⟩ : ExecSt ρ)
                (execKids g cb types dir strat sig fuel nodeId pres depth path
                  ⟨st.visited ++ [visitKey nodeId edgeType], c, st.clock + 1,
                    st.trace ++ [ev]⟩).2 := by
            intro pres c hpres
            have hfold := foldStGrow g cb types dir start sig
              (execKidsStep g cb types dir strat sig fuel nodeId pres depth path)
              (fun stx => ∃ e2 ∈ stx.trace, e2.node = nodeId ∧ e2.ctx.depth = depth ∧
                e2.ctx.path = path ∧
                pres = (cb e2.node e2.parentResult e2.ctx).toOption)
              (validNeighbors g types dir nodeId)
              ?_ (Except.ok [],
                ⟨st.visited ++ [visitKey nodeId edgeType], c, st.clock + 1,
                  st.trace ++ [ev]⟩) ?_
            · exact hfold.1
            · intro acc pr hpr hI
              rw [execKidsStep]
              cases hacc : acc.1 with
              | error e =>
                  exact ⟨StGrow_refl g cb types dir start sig acc.2, hI⟩
              | ok list =>
                  obtain ⟨hnb, edge, hedge, hety, hmatch⟩ := mem_validNeighbors hpr
                  obtain ⟨e2, he2, hn2, hd2, hp2, hr2⟩ := hI
                  have hlink2 : CtxLink g cb types dir start acc.2 pr.1 pres
                      (some nodeId) (some pr.2) (depth + 1) (path ++ [nodeId]) := by
                    refine Or.inr ⟨e2, he2, nodeId, pr.2, edge, rfl, hn2, ?_, ?_, rfl, ?_, ?_,
                      ?_, ?_⟩
                    · rw [hd2]
                    · rw [hp2]
                    · exact hedge
                    · exact hety
                    · exact hmatch
                    · rw [hr2]
                  obtain ⟨hgrow, hnode⟩ := ih pr.1 pres (some nodeId) (some pr.2)
                    (depth + 1) (path ++ [nodeId]) acc.2 hlink2
                  rcases hres : execTreeNode g cb types dir strat sig fuel pr.1 pres
                      (some nodeId) (some pr.2) (depth + 1) (path ++ [nodeId]) acc.2 with
                    ⟨res, sty⟩
                  rw [hres] at hgrow
                  have hIpres : ∃ e3 ∈ sty.trace, e3.node = nodeId ∧ e3.ctx.depth = depth ∧
                      e3.ctx.path = path ∧ pres = (cb e3.node e3.parentResult e3.ctx).toOption := by
                    obtain ⟨-, ⟨new, htr⟩, -⟩ := hgrow
                    exact ⟨e2, by
                      rw [htr]
                      exact List.mem_append.2 (Or.inl he2), hn2, hd2, hp2, hr2⟩
                  cases res with
                  | ok t => exact ⟨hgrow, hIpres⟩
                  | error e =>
                      by_cases hff : strat = ErrorStrategy.failFast
                      · simp only [if_pos hff]
                        exact ⟨hgrow, hIpres⟩
                      · simp only [if_neg hff]
                        exact ⟨hgrow, hIpres⟩
            · refine ⟨ev, List.mem_append.2 (Or.inr (List.mem_singleton.2 rfl)), rfl, rfl,
                rfl, ?_⟩
              exact hpres
          cases hcb : cb nodeId parentResult ctx with
          | ok r =>
              simp only []
              have h3 := hkids (some r) (mapSet st.cache nodeId (some r)) (by rw [hcb]; rfl)
              rcases hk : execKids g cb types dir strat sig fuel nodeId (some r) depth path
                  ⟨st.visited ++ [visitKey nodeId edgeType],
                    mapSet st.cache nodeId (some r), st.clock + 1, st.trace ++ [ev]⟩ with
                ⟨res4, st4⟩
              rw [hk] at h3
              have hgrowall := StGrow_trans (hgrowgen (mapSet st.cache nodeId (some r))) h3
              cases res4 with
              | error e => exact ⟨hgrowall, fun t ht => by cases ht⟩
              | ok kids =>
                  refine ⟨hgrowall, fun t ht => ?_⟩
                  have := Except.ok.inj ht
                  rw [← this]
                  rfl
          | error e =>
              simp only []
              by_cases hff : strat = ErrorStrategy.failFast
              · simp only [if_pos hff]
                exact ⟨hgrowgen (mapSet st.cache nodeId none), fun t ht => by cases ht⟩
              · simp only [if_neg hff]
                by_cases hsc : strat = ErrorStrategy.skipChildren
                · simp only [if_pos hsc]
                  refine ⟨hgrowgen (mapSet st.cache nodeId none), fun t ht => ?_⟩
                  have := Except.ok.inj ht
                  rw [← this]
                  rfl
                · simp only [if_neg hsc]
                  have h3 := hkids none (mapSet st.cache nodeId none) (by rw [hcb]; rfl)
                  rcases hk : execKids g cb types dir strat sig fuel nodeId none depth path
                      ⟨st.visited ++ [visitKey nodeId edgeType],
                        mapSet st.cache nodeId none, st.clock + 1, st.trace ++ [ev]⟩ with
                    ⟨res4, st4⟩
                  rw [hk] at h3
                  have hgrowall := StGrow_trans (hgrowgen (mapSet st.cache nodeId none)) h3
                  cases res4 with
                  | error e2 => exact ⟨hgrowall, fun t ht => by cases ht⟩
                  | ok kids =>
                      refine ⟨hgrowall, fun t ht => ?_⟩
                      have := Except.ok.inj ht
                      rw [← this]
                      rfl

/-- C5: every invocation recorded by the executor passes the callback the
node id, the settled parent result (none for the root), and a context whose
depth, ancestor path, parent id and edge type are linked to the parent
invocation exactly as the source computes them (root: depth 0, empty path,
null parent, null edge type); moreover no invocation happens at an aborted
clock.  The payload clause of the specification is vacuous: addEdge stores
no payload, so the edge record carries only its type. -/
theorem c5_callback_context {ρ : Type} (g : Graph) (cb : Cb ρ)
    (types : Option (List String)) (dir : Direction) (strat : ErrorStrategy)
    (sig : Nat → Bool) (start : String) (e : InvokeEvent ρ)
    (he : e ∈ (executeOnTree g cb types dir strat sig start).2.trace) :
    sig e.clock = false ∧
      EventOK g cb types dir start
        (executeOnTree g cb types dir strat sig start).2.trace e := by
  rw [executeOnTree] at he ⊢
  by_cases hs : mapHas g.nodes start = true
  · rw [if_pos hs] at he ⊢
    obtain ⟨-, -, h3⟩ := (execTreeNode_grow g cb types dir strat sig start
      ((vkCands g dir start).toFinset.card + 1) start none none none 0 []
      ⟨[], [], 0, []⟩ (Or.inl ⟨rfl, rfl, rfl, rfl, rfl, rfl⟩)).1
    rcases h3 e he with h0 | hok
    · exact absurd h0 (List.not_mem_nil e)
    · exact hok
  · rw [if_neg hs] at he
    exact absurd he (List.not_mem_nil e)

theorem c5_witness :
    (fun _ : Nat => false) 0 = false ∧
      EventOK ((addNode Graph.empty "A").1) (fun _ _ _ => Except.ok (0 : Int)) none
        Direction.outgoing "A"
        (executeOnTree ((addNode Graph.empty "A").1) (fun _ _ _ => Except.ok (0 : Int))
          none Direction.outgoing ErrorStrategy.collect (fun _ => false) "A").2.trace
        ⟨"A", none, ⟨0, [], none, none, []⟩, 0⟩ :=
  c5_callback_context ((addNode Graph.empty "A").1) (fun _ _ _ => Except.ok (0 : Int)) none
    Direction.outgoing ErrorStrategy.collect (fun _ => false) "A"
    ⟨"A", none, ⟨0, [], none, none, []⟩, 0⟩ (by decide)

theorem execTreeNode_abort {ρ : Type} (g : Graph) (cb : Cb ρ)
    (types : Option (List String)) (dir : Direction) (strat : ErrorStrategy)
    (sig : Nat → Bool) (fuel : Nat) (nodeId : String) (parentResult : Option ρ)
    (parentNode edgeType : Option String) (depth : Nat) (path : List String)
    (st : ExecSt ρ) (h : sig st.clock = true) :
    execTreeNode g cb types dir strat sig (fuel + 1) nodeId parentResult parentNode
      edgeType depth path st = (Except.error "Execution aborted", st) := by
  rw [execTreeNode_succ_eq, if_pos h]

/-- C4 (amended): once the cancellation signal is observed before a node
invocation, that invocation is abandoned with the cancellation error and no
callback runs at an aborted clock (first conjunct); if the signal is already
triggered when executeOnTree starts, the whole call rejects with the
cancellation error and performs no invocation under every errorStrategy
(second conjunct); under the fail-fast strategy a cancellation observed
mid-run still rejects the overall promise (third conjunct).  The original
claim that the promise always rejects regardless of errorStrategy is refuted
by the counterexample theorem: under collect a child cancellation is
converted into an error node and the promise resolves. -/
theorem c4_abort_propagation :
    (∀ (ρ : Type) (g : Graph) (cb : Cb ρ) (types : Option (List String))
        (dir : Direction) (strat : ErrorStrategy) (sig : Nat → Bool) (start : String)
        (e : InvokeEvent ρ),
      e ∈ (executeOnTree g cb types dir strat sig start).2.trace →
        sig e.clock = false) ∧
    (∀ (ρ : Type) (g : Graph) (cb : Cb ρ) (types : Option (List String))
        (dir : Direction) (strat : ErrorStrategy) (sig : Nat → Bool) (start : String),
      mapHas g.nodes start = true → sig 0 = true →
      (executeOnTree g cb types dir strat sig start).1 =
          Except.error "Execution aborted" ∧
        (executeOnTree g cb types dir strat sig start).2.trace = []) ∧
    (executeOnTree (addEdge Graph.empty "A" "B" "dep")
        (fun _ _ _ => Except.ok (0 : Int)) none Direction.outgoing
        ErrorStrategy.failFast (fun c => decide (1 ≤ c)) "A").1 =
      Except.error "Execution aborted" := by
  refine ⟨?_, ?_, rfl⟩
  · intro ρ g cb types dir strat sig start e he
    rw [executeOnTree] at he
    by_cases hs : mapHas g.nodes start = true
    · rw [if_pos hs] at he
      obtain ⟨-, -, h3⟩ := (execTreeNode_grow g cb types dir strat sig start
        ((vkCands g dir start).toFinset.card + 1) start none none none 0 []
        ⟨[], [], 0, []⟩ (Or.inl ⟨rfl, rfl, rfl, rfl, rfl, rfl⟩)).1
      rcases h3 e he with h0 | hok
      · exact absurd h0 (List.not_mem_nil e)
      · exact hok.1
    · rw [if_neg hs] at he
      exact absurd he (List.not_mem_nil e)
  · intro ρ g cb types dir strat sig start hs hsig0
    have ha := execTreeNode_abort g cb types dir strat sig
      ((vkCands g dir start).toFinset.card) start none none none 0 []
      (⟨[], [], 0, []⟩ : ExecSt ρ) hsig0
    rw [executeOnTree, if_pos hs, ha]
    exact ⟨rfl, rfl⟩

theorem c4_witness :
    (executeOnTree ((addNode Graph.empty "A").1) (fun _ _ _ => Except.ok (0 : Int)) none
        Direction.outgoing ErrorStrategy.collect (fun _ => true) "A").1 =
      Except.error "Execution aborted" ∧
    (executeOnTree ((addNode Graph.empty "A").1) (fun _ _ _ => Except.ok (0 : Int)) none
        Direction.outgoing ErrorStrategy.collect (fun _ => true) "A").2.trace = [] :=
  c4_abort_propagation.2.1 Int ((addNode Graph.empty "A").1)
    (fun _ _ _ => Except.ok (0 : Int)) none Direction.outgoing ErrorStrategy.collect
    (fun _ => true) "A" (by decide) rfl

/-- C4 counterexample: under the collect strategy a cancellation observed
before a child invocation does not reject the overall promise; the child is
recorded as an error node holding the cancellation message and executeOnTree
resolves. -/
theorem c4_collect_resolves_after_abort :
    (executeOnTree (addEdge Graph.empty "A" "B" "dep")
        (fun _ _ _ => Except.ok (0 : Int)) none Direction.outgoing
        ErrorStrategy.collect (fun c => decide (1 ≤ c)) "A").1 =
      Except.ok (ExecNode.mk "A" (some 0) none false
        [ExecNode.mk "B" none (some "Execution aborted") false []]) := rfl

theorem execKidsStep_ok {ρ : Type} (g : Graph) (cb : Cb ρ)
    (types : Option (List String)) (dir : Direction) (sig : Nat → Bool) (fuel : Nat)
    (nodeId : String) (parentRes : Option ρ) (depth : Nat) (path : List String)
    (acc : Except String (List (ExecNode ρ)) × ExecSt ρ) (pr : String × String)
    (list : List (ExecNode ρ)) (hacc : acc.1 = Except.ok list) :
    ∃ list2, (execKidsStep g cb types dir ErrorStrategy.collect sig fuel nodeId
      parentRes depth path acc pr).1 = Except.ok list2 := by
  rw [execKidsStep, hacc]
  rcases hres : execTreeNode g cb types dir ErrorStrategy.collect sig fuel pr.1
      parentRes (some nodeId) (some pr.2) (depth + 1) (path ++ [nodeId]) acc.2 with
    ⟨res, sty⟩
  cases res with
  | ok t => exact ⟨list ++ [t], rfl⟩
  | error e => exact ⟨list ++ [ExecNode.mk pr.1 none (some e) false []], rfl⟩

theorem foldKids_ok {ρ : Type} (g : Graph) (cb : Cb ρ) (types : Option (List String))
    (dir : Direction) (sig : Nat → Bool) (fuel : Nat) (nodeId : String)
    (parentRes : Option ρ) (depth : Nat) (path : List String) :
    ∀ (l : List (String × String)) (acc : Except String (List (ExecNode ρ)) × ExecSt ρ)
      (list : List (ExecNode ρ)), acc.1 = Except.ok list →
      ∃ list2, (List.foldl (execKidsStep g cb types dir ErrorStrategy.collect sig fuel
        nodeId parentRes depth path) acc l).1 = Except.ok list2 := by
  intro l
  induction l with
  | nil =>
      intro acc list hacc
      exact ⟨list, by rw [List.foldl_nil]; exact hacc⟩
  | cons pr rest ih =>
      intro acc list hacc
      obtain ⟨list2, h2⟩ := execKidsStep_ok g cb types dir sig fuel nodeId parentRes
        depth path acc pr list hacc
      rw [List.foldl_cons]
      exact ih (execKidsStep g cb types dir ErrorStrategy.collect sig fuel nodeId
        parentRes depth path acc pr) list2 h2

theorem execKids_ok {ρ : Type} (g : Graph) (cb : Cb ρ) (types : Option (List String))
    (dir : Direction) (sig : Nat → Bool) (fuel : Nat) (nodeId : String)
    (parentRes : Option ρ) (depth : Nat) (path : List String) (stk : ExecSt ρ) :
    ∃ kids st4, execKids g cb types dir ErrorStrategy.collect sig fuel nodeId
      parentRes depth path stk = (Except.ok kids, st4) := by
  obtain ⟨list2, h2⟩ := foldKids_ok g cb types dir sig fuel nodeId parentRes depth path
    (validNeighbors g types dir nodeId) (Except.ok [], stk) [] rfl
  refine ⟨list2, (List.foldl (execKidsStep g cb types dir ErrorStrategy.collect sig
    fuel nodeId parentRes depth path) (Except.ok [], stk)
    (validNeighbors g types dir nodeId)).2, ?_⟩
  have hu : execKids g cb types dir ErrorStrategy.collect sig fuel nodeId parentRes
      depth path stk
      = List.foldl (execKidsStep g cb types dir ErrorStrategy.collect sig fuel nodeId
        parentRes depth path) (Except.ok [], stk)
        (validNeighbors g types dir nodeId) := rfl
  rw [hu, ← h2]

/-- C3: under the collect strategy, a node whose callback throws is recorded
with the thrown error and a null result while its children are still
attempted with a null parent result (first conjunct, with the resulting call
returning a resolved node); a failing child does not cancel the sibling
fold, which converts the failure into an error node and keeps accumulating
(second conjunct); the whole sibling aggregation always settles — it never
produces a rejected accumulator (third conjunct); and a concrete run on the
graph with edges A→B, B→E, A→C where only B throws resolves with B an error
node, sibling C unaffected, and grandchild E invoked with a null parent
result (fourth conjunct). -/
theorem c3_collect :
    (∀ (ρ : Type) (g : Graph) (cb : Cb ρ) (types : Option (List String))
        (dir : Direction) (sig : Nat → Bool) (fuel : Nat) (nodeId : String)
        (parentResult : Option ρ) (parentNode edgeType : Option String)
        (depth : Nat) (path : List String) (st : ExecSt ρ) (err : String),
      sig st.clock = false →
      visitKey nodeId edgeType ∉ st.visited →
      cb nodeId parentResult ⟨depth, path, parentNode, edgeType, []⟩ =
          Except.error err →
      ∃ kids st4,
        execKids g cb types dir ErrorStrategy.collect sig fuel nodeId none depth path
          ⟨st.visited ++ [visitKey nodeId edgeType], mapSet st.cache nodeId none,
            st.clock + 1,
            st.trace ++ [⟨nodeId, parentResult, ⟨depth, path, parentNode, edgeType, []⟩,
              st.clock⟩]⟩ = (Except.ok kids, st4) ∧
        execTreeNode g cb types dir ErrorStrategy.collect sig (fuel + 1) nodeId
          parentResult parentNode edgeType depth path st
          = (Except.ok (ExecNode.mk nodeId none (some err) false kids), st4)) ∧
    (∀ (ρ : Type) (g : Graph) (cb : Cb ρ) (types : Option (List String))
        (dir : Direction) (sig : Nat → Bool) (fuel : Nat) (nodeId : String)
        (parentRes : Option ρ) (depth : Nat) (path : List String)
        (acc : Except String (List (ExecNode ρ)) × ExecSt ρ)
        (list : List (ExecNode ρ)) (pr : String × String) (e : String)
        (sty : ExecSt ρ),
      acc.1 = Except.ok list →
      execTreeNode g cb types dir ErrorStrategy.collect sig fuel pr.1 parentRes
          (some nodeId) (some pr.2) (depth + 1) (path ++ [nodeId]) acc.2 =
        (Except.error e, sty) →
      execKidsStep g cb types dir ErrorStrategy.collect sig fuel nodeId parentRes
          depth path acc pr
        = (Except.ok (list ++ [ExecNode.mk pr.1 none (some e) false []]), sty)) ∧
    (∀ (ρ : Type) (g : Graph) (cb : Cb ρ) (types : Option (List String))
        (dir : Direction) (sig : Nat → Bool) (fuel : Nat) (nodeId : String)
        (parentRes : Option ρ) (depth : Nat) (path : List String) (stk : ExecSt ρ),
      ∃ kids st4, execKids g cb types dir ErrorStrategy.collect sig fuel nodeId
        parentRes depth path stk = (Except.ok kids, st4)) ∧
    (executeOnTree (addEdge (addEdge (addEdge Graph.empty "A" "B" "d") "B" "E" "d")
        "A" "C" "d")
      (fun n pr _ => if n = "B" then Except.error "boom"
        else Except.ok (match pr with | none => (1 : Int) | some v => 10 * v))
      none Direction.outgoing ErrorStrategy.collect (fun _ => false) "A").1 =
      Except.ok (ExecNode.mk "A" (some 1) none false
        [ExecNode.mk "B" none (some "boom") false
          [ExecNode.mk "E" (some 1) none false []],
         ExecNode.mk "C" (some 10) none false []]) := by
  refine ⟨?_, ?_, ?_, rfl⟩
  · intro ρ g cb types dir sig fuel nodeId parentResult parentNode edgeType depth path
      st err hsig hvk hcb
    obtain ⟨kids, st4, hk⟩ := execKids_ok g cb types dir sig fuel nodeId none depth path
      ⟨st.visited ++ [visitKey nodeId edgeType], mapSet st.cache nodeId none,
        st.clock + 1,
        st.trace ++ [⟨nodeId, parentResult, ⟨depth, path, parentNode, edgeType, []⟩,
          st.clock⟩]⟩
    refine ⟨kids, st4, hk, ?_⟩
    rw [execTreeNode_succ_eq,
      if_neg (show ¬ sig st.clock = true from by rw [hsig]; exact Bool.false_ne_true),
      if_neg hvk]
    simp only []
    rw [hcb, hk]
    rfl
  · intro ρ g cb types dir sig fuel nodeId parentRes depth path acc list pr e sty
      hacc hchild
    rw [execKidsStep, hacc, hchild]
    rfl
  · intro ρ g cb types dir sig fuel nodeId parentRes depth path stk
    exact execKids_ok g cb types dir sig fuel nodeId parentRes depth path stk

theorem c3_witness :
    ∃ kids st4,
      execKids ((addNode Graph.empty "A").1) (fun _ _ _ => Except.error "boom") none
        Direction.outgoing ErrorStrategy.collect (fun _ => false) 0 "A" none 0 []
        ⟨[] ++ [visitKey "A" none], mapSet [] "A" none, 0 + 1,
          [] ++ [⟨"A", (none : Option Int), ⟨0, [], none, none, []⟩, 0⟩]⟩
        = (Except.ok kids, st4) ∧
      execTreeNode ((addNode Graph.empty "A").1) (fun _ _ _ => Except.error "boom") none
        Direction.outgoing ErrorStrategy.collect (fun _ => false) (0 + 1) "A"
        (none : Option Int) none none 0 [] ⟨[], [], 0, []⟩
        = (Except.ok (ExecNode.mk "A" none (some "boom") false kids), st4) :=
  c3_collect.1 Int ((addNode Graph.empty "A").1) (fun _ _ _ => Except.error "boom") none
    Direction.outgoing (fun _ => false) 0 "A" none none none 0 [] ⟨[], [], 0, []⟩
    "boom" rfl (by decide) rfl


end DepGraph
